import Mathlib

/-!
Verification development for the control-plane core of a distributed
vector-database streaming platform: the datacoord task scheduler
(`task_scheduler.go`), the streaming channel manager (channel assignment
and term fencing), and the datacoord garbage collector
(`garbage_collector.go`).

Shallow embedding conventions:
* Go `int64` values (node ids, task ids, slot counts, terms, timestamps)
  are modelled as `Int`; none of the verified properties depend on 64-bit
  overflow behaviour at realistic magnitudes.
* Go maps iterated by `range` are modelled as association lists
  `List (Int × α)`; a list order represents one iteration order, and all
  theorems are proved for every order.
* RPC and metadata-store calls whose implementations live outside the
  analysed files are modelled as boolean/function oracles passed in
  explicitly, so each theorem holds for every possible outcome of those
  calls.
-/

/-! ## Worker-slot snapshot and `pickNode` (task_scheduler.go)

The scheduler's dispatch pass queries a snapshot `map[int64]*WorkerSlots`
and mutates it locally.  We model the snapshot as an association list of
`(nodeID, availableSlots)` pairs; the list order is the map iteration
order. -/

/-- Outcome of the scan loop inside `taskScheduler.pickNode`: either the
first node whose available slots cover the task slot, or the tracked
fallback node, or exhaustion (`return -1`). -/
inductive PickChoice where
  | fit (n : Int)
  | fallback (n : Int)
  | exhausted
deriving DecidableEq, Repr

/-- The loop body of `taskScheduler.pickNode`: iterate the snapshot; on
`ws.AvailableSlots >= taskSlot` return that node; otherwise track the
node with maximum positive available slots (`maxAvailable`,
`fallbackNodeID` accumulators, both starting at `-1`). -/
def pickScan (c : Int) : List (Int × Int) → Int → Int → PickChoice
  | [], _maxAv, fb => if fb = -1 then PickChoice.exhausted else PickChoice.fallback fb
  | (nid, s) :: rest, maxAv, fb =>
    if c ≤ s then PickChoice.fit nid
    else if maxAv < s ∧ 0 < s then pickScan c rest s nid
    else pickScan c rest maxAv fb

/-- First node of the snapshot whose available slots cover the cost. -/
def findFit (c : Int) : List (Int × Int) → Option Int
  | [] => none
  | (nid, s) :: rest => if c ≤ s then some nid else findFit c rest

/-- The fallback-tracking part of the `pickNode` loop, run to completion:
returns the final `fallbackNodeID` accumulator. -/
def maxScan : List (Int × Int) → Int → Int → Int
  | [], _maxAv, fb => fb
  | (nid, s) :: rest, maxAv, fb =>
    if maxAv < s ∧ 0 < s then maxScan rest s nid else maxScan rest maxAv fb

/-- `ws.AvailableSlots -= taskSlot` on the (first) entry of node `n`. -/
def subSlot : List (Int × Int) → Int → Int → List (Int × Int)
  | [], _, _ => []
  | (m, s) :: rest, n, c => if m = n then (m, s - c) :: rest else (m, s) :: subSlot rest n c

/-- `workerSlots[fallbackNodeID].AvailableSlots = 0` on the (first) entry
of node `n`. -/
def zeroSlot : List (Int × Int) → Int → List (Int × Int)
  | [], _ => []
  | (m, s) :: rest, n => if m = n then (m, (0 : Int)) :: rest else (m, s) :: zeroSlot rest n

/-- Reading a node's entry from the snapshot (first occurrence). -/
def slotOf : List (Int × Int) → Int → Option Int
  | [], _ => none
  | (m, s) :: rest, n => if m = n then some s else slotOf rest n

/-- `taskScheduler.pickNode`: returns the chosen node id (or `-1`) and
the snapshot after the local mutation performed by the Go code. -/
def pickNode (ws : List (Int × Int)) (c : Int) : Int × List (Int × Int) :=
  match pickScan c ws (-1) (-1) with
  | PickChoice.fit n => (n, subSlot ws n c)
  | PickChoice.fallback n => (n, zeroSlot ws n)
  | PickChoice.exhausted => (-1, ws)

/-- `taskScheduler.hasAvailableSlots`. -/
def hasAvailableSlots : List (Int × Int) → Bool
  | [] => false
  | (_, s) :: rest => if 0 < s then true else hasAvailableSlots rest

/-- The node-id column of a snapshot has no duplicates (always true of a
Go map). -/
abbrev keysNodup (ws : List (Int × Int)) : Prop := (ws.map Prod.fst).Nodup

theorem pickScan_eq (c : Int) (ws : List (Int × Int)) : ∀ (maxAv fb : Int),
    pickScan c ws maxAv fb =
      match findFit c ws with
      | some n => PickChoice.fit n
      | none =>
        if maxScan ws maxAv fb = -1 then PickChoice.exhausted
        else PickChoice.fallback (maxScan ws maxAv fb) := by
  induction ws with
  | nil => intro maxAv fb; simp [pickScan, findFit, maxScan]
  | cons p rest ih =>
    intro maxAv fb
    obtain ⟨nid, s⟩ := p
    by_cases h1 : c ≤ s
    · simp [pickScan, findFit, h1]
    · by_cases h2 : maxAv < s ∧ 0 < s
      · simpa [pickScan, findFit, maxScan, h1, h2] using ih s nid
      · simpa [pickScan, findFit, maxScan, h1, h2] using ih maxAv fb

theorem findFit_mem (c : Int) : ∀ (ws : List (Int × Int)) (n : Int),
    findFit c ws = some n → ∃ s, (n, s) ∈ ws ∧ c ≤ s := by
  intro ws
  induction ws with
  | nil => intro n h; simp [findFit] at h
  | cons p rest ih =>
    intro n h
    obtain ⟨nid, s⟩ := p
    by_cases h1 : c ≤ s
    · simp [findFit, h1] at h
      exact ⟨s, by simp [h], h1⟩
    · simp [findFit, h1] at h
      obtain ⟨t, ht, hct⟩ := ih n h
      exact ⟨t, by simp [ht], hct⟩

theorem findFit_none (c : Int) : ∀ (ws : List (Int × Int)),
    findFit c ws = none ↔ ∀ p ∈ ws, p.2 < c := by
  intro ws
  induction ws with
  | nil => simp [findFit]
  | cons p rest ih =>
    obtain ⟨nid, s⟩ := p
    by_cases h1 : c ≤ s
    · simp only [findFit, if_pos h1]
      constructor
      · intro h; simp at h
      · intro h
        have hs : ((nid, s) : Int × Int).2 < c := h (nid, s) (List.mem_cons_self _ _)
        exact absurd hs (not_lt.mpr h1)
    · simp only [findFit, if_neg h1]
      rw [ih]
      constructor
      · intro h p hp
        rcases List.mem_cons.mp hp with hp | hp
        · rw [hp]; exact lt_of_not_le h1
        · exact h p hp
      · intro h p hp
        exact h p (List.mem_cons_of_mem _ hp)

theorem maxScan_spec : ∀ (ws : List (Int × Int)) (maxAv fb : Int),
    (maxScan ws maxAv fb = fb ∧ ∀ p ∈ ws, 0 < p.2 → p.2 ≤ maxAv)
    ∨ (∃ s, (maxScan ws maxAv fb, s) ∈ ws ∧ 0 < s ∧ maxAv < s ∧
        ∀ p ∈ ws, 0 < p.2 → p.2 ≤ s) := by
  intro ws
  induction ws with
  | nil =>
    intro maxAv fb
    left
    exact ⟨by simp [maxScan], by simp⟩
  | cons p rest ih =>
    intro maxAv fb
    obtain ⟨nid, s⟩ := p
    by_cases h : maxAv < s ∧ 0 < s
    · rw [show maxScan ((nid, s) :: rest) maxAv fb = maxScan rest s nid by
        simp [maxScan, h]]
      rcases ih s nid with ⟨heq, hall⟩ | ⟨t, hmem, ht0, hst, hall⟩
      · right
        refine ⟨s, ?_, h.2, h.1, ?_⟩
        · rw [heq]; exact List.mem_cons_self _ _
        · intro q hq _
          rcases List.mem_cons.mp hq with hq | hq
          · simp [hq]
          · exact hall q hq (by assumption)
      · right
        refine ⟨t, List.mem_cons_of_mem _ hmem, ht0, lt_trans h.1 hst, ?_⟩
        intro q hq hq0
        rcases List.mem_cons.mp hq with hq | hq
        · simp only [hq]; exact le_of_lt hst
        · exact hall q hq hq0
    · rw [show maxScan ((nid, s) :: rest) maxAv fb = maxScan rest maxAv fb by
        simp [maxScan, h]]
      have hs : 0 < s → s ≤ maxAv := by
        intro hs0
        by_contra hle
        exact h ⟨lt_of_not_le hle, hs0⟩
      rcases ih maxAv fb with ⟨heq, hall⟩ | ⟨t, hmem, ht0, hst, hall⟩
      · left
        refine ⟨heq, ?_⟩
        intro q hq hq0
        rcases List.mem_cons.mp hq with hq | hq
        · simp only [hq] at hq0 ⊢; exact hs hq0
        · exact hall q hq hq0
      · right
        refine ⟨t, List.mem_cons_of_mem _ hmem, ht0, hst, ?_⟩
        intro q hq hq0
        rcases List.mem_cons.mp hq with hq | hq
        · simp only [hq] at hq0 ⊢
          exact le_trans (hs hq0) (le_of_lt hst)
        · exact hall q hq hq0

theorem slotOf_eq_some_of_mem : ∀ (ws : List (Int × Int)) (n s : Int),
    keysNodup ws → (n, s) ∈ ws → slotOf ws n = some s := by
  intro ws
  induction ws with
  | nil => intro n s _ h; simp at h
  | cons p rest ih =>
    intro n s hnd hmem
    obtain ⟨m, t⟩ := p
    rcases List.mem_cons.mp hmem with h | h
    · obtain ⟨h1, h2⟩ := Prod.mk.injEq .. ▸ h
      simp [slotOf, h1.symm, h2]
    · have hm : m ≠ n := by
        intro he
        have : n ∈ rest.map Prod.fst := by
          exact List.mem_map.mpr ⟨(n, s), h, rfl⟩
        have hnd' := (List.nodup_cons.mp hnd).1
        rw [he] at hnd'
        exact hnd' this
      simp only [slotOf, if_neg hm]
      exact ih n s (List.nodup_cons.mp hnd).2 h

theorem slotOf_mem : ∀ (ws : List (Int × Int)) (n s : Int),
    slotOf ws n = some s → (n, s) ∈ ws := by
  intro ws
  induction ws with
  | nil => intro n s h; simp [slotOf] at h
  | cons p rest ih =>
    intro n s h
    obtain ⟨m, t⟩ := p
    by_cases hm : m = n
    · simp [slotOf, hm] at h
      simp [hm, h]
    · simp only [slotOf, if_neg hm] at h
      exact List.mem_cons_of_mem _ (ih n s h)

theorem slotOf_subSlot_self : ∀ (ws : List (Int × Int)) (n c : Int),
    slotOf (subSlot ws n c) n = (slotOf ws n).map (fun s => s - c) := by
  intro ws
  induction ws with
  | nil => intro n c; simp [subSlot, slotOf]
  | cons p rest ih =>
    intro n c
    obtain ⟨m, s⟩ := p
    by_cases hm : m = n
    · simp [subSlot, slotOf, hm]
    · simp [subSlot, slotOf, hm, ih]

theorem slotOf_subSlot_ne : ∀ (ws : List (Int × Int)) (n c m : Int), m ≠ n →
    slotOf (subSlot ws n c) m = slotOf ws m := by
  intro ws
  induction ws with
  | nil => intro n c m _; simp [subSlot]
  | cons p rest ih =>
    intro n c m hmn
    obtain ⟨k, s⟩ := p
    by_cases hk : k = n
    · subst hk
      simp [subSlot, slotOf, Ne.symm hmn]
    · by_cases hk2 : k = m
      · subst hk2
        simp [subSlot, slotOf, hk]
      · simp [subSlot, slotOf, hk, hk2, ih n c m hmn]

theorem slotOf_zeroSlot_self : ∀ (ws : List (Int × Int)) (n : Int),
    slotOf (zeroSlot ws n) n = (slotOf ws n).map (fun _ => (0 : Int)) := by
  intro ws
  induction ws with
  | nil => intro n; simp [zeroSlot, slotOf]
  | cons p rest ih =>
    intro n
    obtain ⟨m, s⟩ := p
    by_cases hm : m = n
    · simp [zeroSlot, slotOf, hm]
    · simp [zeroSlot, slotOf, hm, ih]

theorem slotOf_zeroSlot_ne : ∀ (ws : List (Int × Int)) (n m : Int), m ≠ n →
    slotOf (zeroSlot ws n) m = slotOf ws m := by
  intro ws
  induction ws with
  | nil => intro n m _; simp [zeroSlot]
  | cons p rest ih =>
    intro n m hmn
    obtain ⟨k, s⟩ := p
    by_cases hk : k = n
    · subst hk
      simp [zeroSlot, slotOf, Ne.symm hmn]
    · by_cases hk2 : k = m
      · subst hk2
        simp [zeroSlot, slotOf, hk]
      · simp [zeroSlot, slotOf, hk, hk2, ih n m hmn]

theorem subSlot_keys : ∀ (ws : List (Int × Int)) (n c : Int),
    (subSlot ws n c).map Prod.fst = ws.map Prod.fst := by
  intro ws
  induction ws with
  | nil => intro n c; simp [subSlot]
  | cons p rest ih =>
    intro n c
    obtain ⟨m, s⟩ := p
    by_cases hm : m = n
    · simp [subSlot, hm]
    · simp [subSlot, hm, ih]

theorem zeroSlot_keys : ∀ (ws : List (Int × Int)) (n : Int),
    (zeroSlot ws n).map Prod.fst = ws.map Prod.fst := by
  intro ws
  induction ws with
  | nil => intro n; simp [zeroSlot]
  | cons p rest ih =>
    intro n
    obtain ⟨m, s⟩ := p
    by_cases hm : m = n
    · simp [zeroSlot, hm]
    · simp [zeroSlot, hm, ih]

theorem keys_facts_of_keys_eq {ws ws' : List (Int × Int)}
    (h : ws'.map Prod.fst = ws.map Prod.fst) :
    (keysNodup ws → keysNodup ws') ∧
    ((∀ p ∈ ws, p.1 ≠ -1) → ∀ p ∈ ws', p.1 ≠ -1) := by
  constructor
  · intro hnd; unfold keysNodup at *; rw [h]; exact hnd
  · intro hk p hp
    have hmem : p.1 ∈ ws'.map Prod.fst := List.mem_map_of_mem _ hp
    rw [h] at hmem
    obtain ⟨q, hq, hq1⟩ := List.mem_map.mp hmem
    rw [← hq1]
    exact hk q hq

/-- Full case analysis of `pickNode` on a snapshot with distinct node ids
none of which is `-1`: first-fit, fallback-to-max-positive, or failure. -/
theorem pickNode_cases (ws : List (Int × Int)) (c : Int)
    (hnd : keysNodup ws) (hk : ∀ p ∈ ws, p.1 ≠ -1) :
    (∃ n s, slotOf ws n = some s ∧ c ≤ s ∧ pickNode ws c = (n, subSlot ws n c))
    ∨ ((∀ p ∈ ws, p.2 < c) ∧ ∃ n s, slotOf ws n = some s ∧ 0 < s ∧
        (∀ p ∈ ws, p.2 ≤ s) ∧ pickNode ws c = (n, zeroSlot ws n))
    ∨ ((∀ p ∈ ws, p.2 < c) ∧ (∀ p ∈ ws, p.2 ≤ 0) ∧ pickNode ws c = (-1, ws)) := by
  unfold pickNode
  rw [pickScan_eq]
  cases hff : findFit c ws with
  | some n =>
    left
    obtain ⟨s, hmem, hcs⟩ := findFit_mem c ws n hff
    exact ⟨n, s, slotOf_eq_some_of_mem ws n s hnd hmem, hcs, rfl⟩
  | none =>
    have hall : ∀ p ∈ ws, p.2 < c := (findFit_none c ws).mp hff
    rcases maxScan_spec ws (-1) (-1) with ⟨heq, hmax⟩ | ⟨s, hmem, hs0, _, hmax⟩
    · right; right
      refine ⟨hall, ?_, by simp [heq]⟩
      intro p hp
      by_contra hpos
      have := hmax p hp (lt_of_not_le hpos)
      omega
    · right; left
      have hne : maxScan ws (-1) (-1) ≠ -1 := hk _ hmem
      refine ⟨hall, maxScan ws (-1) (-1), s,
        slotOf_eq_some_of_mem ws _ s hnd hmem, hs0, ?_, by simp [hne]⟩
      intro p hp
      by_cases hp0 : 0 < p.2
      · exact hmax p hp hp0
      · omega

/-! ## The dispatch pass of `taskScheduler.run`

One `run()` call: while `hasAvailableSlots` holds and the pending queue
is non-empty, pop a task and call `pickNode` on the (locally mutated)
snapshot.  We record, for each popped task, the chosen node, the task's
slot cost, and whether the pick was a fallback pick (the chosen node's
remaining slots were below the cost at pick time — a derived observation,
not a behaviour change). -/

/-- One recorded assignment of the dispatch pass. -/
structure Dispatch where
  node : Int
  cost : Int
  isFallback : Bool
deriving DecidableEq, Repr

/-- The dispatch loop of `taskScheduler.run`, driven by the list of slot
costs of the pending tasks in pop order. -/
def runPass : List (Int × Int) → List Int → List Dispatch
  | _ws, [] => []
  | ws, c :: rest =>
    if hasAvailableSlots ws then
      let r := pickNode ws c
      { node := r.1, cost := c,
        isFallback := decide ((slotOf ws r.1).getD 0 < c) } :: runPass r.2 rest
    else []

/-- Total slot cost of the non-fallback assignments to node `n`. -/
def nonFallbackCost : List Dispatch → Int → Int
  | [], _ => 0
  | d :: rest, n =>
    (if d.node = n ∧ d.isFallback = false then d.cost else 0) + nonFallbackCost rest n

/-- Number of fallback assignments to node `n`. -/
def fallbackCount : List Dispatch → Int → Nat
  | [], _ => 0
  | d :: rest, n =>
    (if d.node = n ∧ d.isFallback = true then 1 else 0) + fallbackCount rest n

theorem subSlot_nonneg : ∀ (ws : List (Int × Int)) (m b c : Int),
    (∀ p ∈ ws, 0 ≤ p.2) → slotOf ws m = some b → c ≤ b →
    ∀ p ∈ subSlot ws m c, 0 ≤ p.2 := by
  intro ws
  induction ws with
  | nil => intro m b c _ h _; simp [slotOf] at h
  | cons q rest ih =>
    intro m b c hent hb hcb p hp
    obtain ⟨k, s⟩ := q
    by_cases hk : k = m
    · simp only [slotOf, if_pos hk] at hb
      have hbs : b = s := by injection hb with h; omega
      simp only [subSlot, if_pos hk] at hp
      rcases List.mem_cons.mp hp with hp | hp
      · rw [hp]
        have := hent (k, s) (List.mem_cons_self _ _)
        simp only at this ⊢
        omega
      · exact hent p (List.mem_cons_of_mem _ hp)
    · simp only [slotOf, if_neg hk] at hb
      simp only [subSlot, if_neg hk] at hp
      rcases List.mem_cons.mp hp with hp | hp
      · rw [hp]; exact hent (k, s) (List.mem_cons_self _ _)
      · exact ih m b c (fun q hq => hent q (List.mem_cons_of_mem _ hq)) hb hcb p hp

theorem zeroSlot_nonneg : ∀ (ws : List (Int × Int)) (m : Int),
    (∀ p ∈ ws, 0 ≤ p.2) → ∀ p ∈ zeroSlot ws m, 0 ≤ p.2 := by
  intro ws
  induction ws with
  | nil => intro m _ p hp; simp [zeroSlot] at hp
  | cons q rest ih =>
    intro m hent p hp
    obtain ⟨k, s⟩ := q
    by_cases hk : k = m
    · simp only [zeroSlot, if_pos hk] at hp
      rcases List.mem_cons.mp hp with hp | hp
      · rw [hp]
      · exact hent p (List.mem_cons_of_mem _ hp)
    · simp only [zeroSlot, if_neg hk] at hp
      rcases List.mem_cons.mp hp with hp | hp
      · rw [hp]; exact hent (k, s) (List.mem_cons_self _ _)
      · exact ih m (fun q hq => hent q (List.mem_cons_of_mem _ hq)) p hp

/-- Per-node accounting invariant of one dispatch pass: for a node with
`b` available slots at the start, the future non-fallback cost is bounded
by `b` and at most one fallback hits the node (none once its entry is
non-positive). -/
theorem runPass_bound (n : Int) : ∀ (costs : List Int) (ws : List (Int × Int)) (b : Int),
    (∀ c ∈ costs, 0 ≤ c) → keysNodup ws → (∀ p ∈ ws, p.1 ≠ -1) →
    (∀ p ∈ ws, 0 ≤ p.2) → slotOf ws n = some b →
    nonFallbackCost (runPass ws costs) n ≤ b ∧
    fallbackCount (runPass ws costs) n ≤ (if 0 < b then 1 else 0) := by
  intro costs
  induction costs with
  | nil =>
    intro ws b _ _ _ hent hb
    have hmem := slotOf_mem ws n b hb
    have hb0 : 0 ≤ b := hent (n, b) hmem
    constructor
    · simp only [runPass, nonFallbackCost]; omega
    · simp only [runPass, fallbackCount]; omega
  | cons c rest ih =>
    intro ws b hc hnd hk hent hb
    have hmem := slotOf_mem ws n b hb
    have hb0 : 0 ≤ b := hent (n, b) hmem
    have hnne : n ≠ -1 := hk (n, b) hmem
    have hc0 : 0 ≤ c := hc c (List.mem_cons_self _ _)
    have hcrest : ∀ x ∈ rest, 0 ≤ x := fun x hx => hc x (List.mem_cons_of_mem _ hx)
    by_cases hav : hasAvailableSlots ws
    · rcases pickNode_cases ws c hnd hk with
        ⟨m, s, hm, hcs, hpick⟩ | ⟨_, m, s, hm, hs0, hmax, hpick⟩ | ⟨_, _, hpick⟩
      · -- first-fit pick of node m
        have hflag : decide ((slotOf ws m).getD 0 < c) = false := by
          rw [hm]
          simp only [Option.getD_some]
          exact decide_eq_false (not_lt.mpr hcs)
        have hrun : runPass ws (c :: rest) =
            { node := m, cost := c, isFallback := false } ::
            runPass (subSlot ws m c) rest := by
          simp only [runPass, if_pos hav, hpick, hflag]
        have hkeys := keys_facts_of_keys_eq (subSlot_keys ws m c)
        have hnd' := hkeys.1 hnd
        have hk' := hkeys.2 hk
        have hent' := subSlot_nonneg ws m s c hent hm hcs
        by_cases hnm : n = m
        · subst hnm
          have hbs : b = s := by rw [hm] at hb; injection hb with h; omega
          have hb' : slotOf (subSlot ws n c) n = some (b - c) := by
            rw [slotOf_subSlot_self, hm, hbs]
            simp
          obtain ⟨ih1, ih2⟩ := ih (subSlot ws n c) (b - c) hcrest hnd' hk' hent' hb'
          rw [hrun]
          constructor
          · simp only [nonFallbackCost]
            simp
            omega
          · simp only [fallbackCount]
            simp
            split_ifs at ih2 ⊢ <;> omega
        · have hb' : slotOf (subSlot ws m c) n = some b := by
            rw [slotOf_subSlot_ne ws m c n hnm, hb]
          obtain ⟨ih1, ih2⟩ := ih (subSlot ws m c) b hcrest hnd' hk' hent' hb'
          rw [hrun]
          constructor
          · simp only [nonFallbackCost]
            simp [Ne.symm hnm]
            omega
          · simp only [fallbackCount]
            simp [Ne.symm hnm]
            split_ifs at ih2 ⊢ <;> omega
      · -- fallback pick of node m (maximum positive slots)
        have hsc : s < c := by
          have hmm := slotOf_mem ws m s hm
          exact (by assumption : ∀ p ∈ ws, p.2 < c) (m, s) hmm
        have hflag : decide ((slotOf ws m).getD 0 < c) = true := by
          rw [hm]
          simp only [Option.getD_some]
          exact decide_eq_true hsc
        have hrun : runPass ws (c :: rest) =
            { node := m, cost := c, isFallback := true } ::
            runPass (zeroSlot ws m) rest := by
          simp only [runPass, if_pos hav, hpick, hflag]
        have hkeys := keys_facts_of_keys_eq (zeroSlot_keys ws m)
        have hnd' := hkeys.1 hnd
        have hk' := hkeys.2 hk
        have hent' := zeroSlot_nonneg ws m hent
        by_cases hnm : n = m
        · subst hnm
          have hbs : b = s := by rw [hm] at hb; injection hb with h; omega
          have hb' : slotOf (zeroSlot ws n) n = some 0 := by
            rw [slotOf_zeroSlot_self, hm]
            simp
          obtain ⟨ih1, ih2⟩ := ih (zeroSlot ws n) 0 hcrest hnd' hk' hent' hb'
          rw [hrun]
          constructor
          · simp only [nonFallbackCost]
            simp
            omega
          · simp only [fallbackCount]
            simp
            split_ifs at ih2 ⊢ <;> omega
        · have hb' : slotOf (zeroSlot ws m) n = some b := by
            rw [slotOf_zeroSlot_ne ws m n hnm, hb]
          obtain ⟨ih1, ih2⟩ := ih (zeroSlot ws m) b hcrest hnd' hk' hent' hb'
          rw [hrun]
          constructor
          · simp only [nonFallbackCost]
            simp [Ne.symm hnm]
            omega
          · simp only [fallbackCount]
            simp [Ne.symm hnm]
            split_ifs at ih2 ⊢ <;> omega
      · -- no node has positive slots: pick returns -1, snapshot unchanged
        have hrun : runPass ws (c :: rest) =
            { node := (-1 : Int), cost := c,
              isFallback := decide ((slotOf ws (-1)).getD 0 < c) } ::
            runPass ws rest := by
          simp only [runPass, if_pos hav, hpick]
        obtain ⟨ih1, ih2⟩ := ih ws b hcrest hnd hk hent hb
        rw [hrun]
        constructor
        · simp only [nonFallbackCost]
          simp [Ne.symm hnne]
          omega
        · simp only [fallbackCount]
          simp [Ne.symm hnne]
          split_ifs at ih2 ⊢ <;> omega
    · constructor
      · simp only [runPass, if_neg hav, nonFallbackCost]
        omega
      · simp only [runPass, if_neg hav, fallbackCount]
        omega

/-- Claim C2: for every worker-slot snapshot and every task with slot
cost `c > 0`, `pickNode` returns a node with `available_slots ≥ c` and
decrements that node's entry by `c` whenever such a node exists; if no
node fits but some node has positive slots, it returns a node with the
maximum positive available slots and zeroes that entry; if no node has
positive slots, it returns `-1` and leaves the snapshot unchanged. -/
theorem pickNode_correct (ws : List (Int × Int)) (c : Int)
    (hc : 0 < c) (hnd : keysNodup ws) (hk : ∀ p ∈ ws, p.1 ≠ -1) :
    ((∃ p ∈ ws, c ≤ p.2) →
      ∃ n s, slotOf ws n = some s ∧ c ≤ s ∧ pickNode ws c = (n, subSlot ws n c)) ∧
    ((∀ p ∈ ws, p.2 < c) → (∃ p ∈ ws, 0 < p.2) →
      ∃ n s, slotOf ws n = some s ∧ 0 < s ∧ (∀ p ∈ ws, p.2 ≤ s) ∧
        pickNode ws c = (n, zeroSlot ws n)) ∧
    ((∀ p ∈ ws, p.2 ≤ 0) → pickNode ws c = (-1, ws)) := by
  rcases pickNode_cases ws c hnd hk with
    ⟨m, s, hm, hcs, hpick⟩ | ⟨hall, m, s, hm, hs0, hmax, hpick⟩ | ⟨hall, hnp, hpick⟩
  · refine ⟨fun _ => ⟨m, s, hm, hcs, hpick⟩, ?_, ?_⟩
    · intro hlt _
      exact absurd hcs (not_le.mpr (hlt (m, s) (slotOf_mem ws m s hm)))
    · intro hle
      have hms := hle (m, s) (slotOf_mem ws m s hm)
      simp only at hms
      exfalso
      omega
  · refine ⟨?_, fun _ _ => ⟨m, s, hm, hs0, hmax, hpick⟩, ?_⟩
    · rintro ⟨p, hp, hcp⟩
      exact absurd hcp (not_le.mpr (hall p hp))
    · intro hle
      have hms := hle (m, s) (slotOf_mem ws m s hm)
      simp only at hms
      exfalso
      omega
  · refine ⟨?_, ?_, fun _ => hpick⟩
    · rintro ⟨p, hp, hcp⟩
      have := hnp p hp
      exfalso
      omega
    · rintro _ ⟨p, hp, hp0⟩
      have := hnp p hp
      exfalso
      omega

/-- Witness for C2 at the snapshot `[(1, 5), (2, 3)]` and cost `2`. -/
theorem pickNode_correct_witness :
    (0 : Int) < 2 ∧ keysNodup [((1 : Int), (5 : Int)), (2, 3)] ∧
    (∀ p ∈ [((1 : Int), (5 : Int)), (2, 3)], p.1 ≠ -1) ∧
    (((∃ p ∈ [((1 : Int), (5 : Int)), (2, 3)], (2 : Int) ≤ p.2) →
      ∃ n s, slotOf [((1 : Int), (5 : Int)), (2, 3)] n = some s ∧ 2 ≤ s ∧
        pickNode [((1 : Int), (5 : Int)), (2, 3)] 2 =
          (n, subSlot [((1 : Int), (5 : Int)), (2, 3)] n 2)) ∧
    ((∀ p ∈ [((1 : Int), (5 : Int)), (2, 3)], p.2 < 2) →
      (∃ p ∈ [((1 : Int), (5 : Int)), (2, 3)], (0 : Int) < p.2) →
      ∃ n s, slotOf [((1 : Int), (5 : Int)), (2, 3)] n = some s ∧ 0 < s ∧
        (∀ p ∈ [((1 : Int), (5 : Int)), (2, 3)], p.2 ≤ s) ∧
        pickNode [((1 : Int), (5 : Int)), (2, 3)] 2 =
          (n, zeroSlot [((1 : Int), (5 : Int)), (2, 3)] n)) ∧
    ((∀ p ∈ [((1 : Int), (5 : Int)), (2, 3)], p.2 ≤ 0) →
      pickNode [((1 : Int), (5 : Int)), (2, 3)] 2 = (-1, [((1 : Int), (5 : Int)), (2, 3)]))) :=
  ⟨by decide, by decide, by decide,
    pickNode_correct [((1 : Int), (5 : Int)), (2, 3)] 2 (by decide) (by decide) (by decide)⟩

/-- Claim C3: within a single dispatch pass over one slot snapshot, for
every node `n` the sum of the slot costs of the non-fallback tasks
assigned to `n` by `pickNode` is at most `n`'s available slots at the
start of the pass, and at most one fallback task is assigned to `n`. -/
theorem run_pass_per_node_budget (ws : List (Int × Int)) (costs : List Int) (n b : Int)
    (hcosts : ∀ c ∈ costs, 0 ≤ c) (hnd : keysNodup ws) (hk : ∀ p ∈ ws, p.1 ≠ -1)
    (hent : ∀ p ∈ ws, 0 ≤ p.2) (hb : slotOf ws n = some b) :
    nonFallbackCost (runPass ws costs) n ≤ b ∧
    fallbackCount (runPass ws costs) n ≤ 1 := by
  obtain ⟨h1, h2⟩ := runPass_bound n costs ws b hcosts hnd hk hent hb
  refine ⟨h1, le_trans h2 ?_⟩
  split_ifs <;> omega

/-- Witness for C3 at snapshot `[(1, 3), (2, 2)]`, pop order costs
`[2, 2, 5, 1]`, node `1` with three initial slots. -/
theorem run_pass_per_node_budget_witness :
    (∀ c ∈ [(2 : Int), 2, 5, 1], 0 ≤ c) ∧ keysNodup [((1 : Int), (3 : Int)), (2, 2)] ∧
    (∀ p ∈ [((1 : Int), (3 : Int)), (2, 2)], p.1 ≠ -1) ∧
    (∀ p ∈ [((1 : Int), (3 : Int)), (2, 2)], 0 ≤ p.2) ∧
    slotOf [((1 : Int), (3 : Int)), (2, 2)] 1 = some 3 ∧
    (nonFallbackCost (runPass [((1 : Int), (3 : Int)), (2, 2)] [2, 2, 5, 1]) 1 ≤ 3 ∧
     fallbackCount (runPass [((1 : Int), (3 : Int)), (2, 2)] [2, 2, 5, 1]) 1 ≤ 1) :=
  ⟨by decide, by decide, by decide, by decide, by decide,
    run_pass_per_node_budget [((1 : Int), (3 : Int)), (2, 2)] [2, 2, 5, 1] 1 3
      (by decide) (by decide) (by decide) (by decide) (by decide)⟩

/-! ## Scheduler state: pending queue and running map (task_scheduler.go)

The scheduler holds a pending queue (`schedulePolicy`, a fair-share
queue keyed by task id whose implementation lives outside the analysed
files — modelled from the spec as a task-id-keyed sequence) and a
running map (`ConcurrentMap[UniqueID, Task]`, modelled as a
task-id-keyed list).  Task records keep the fields the analysed code
reads or writes: id, state, fail reason, and a counter of `ResetTask`
calls (wall-clock fields and worker requests are not read by any claim
and are omitted). -/

/-- `indexpb.JobState`. -/
inductive JobState where
  | jsNone
  | jsInit
  | jsInProgress
  | jsRetry
  | jsFinished
  | jsFailed
deriving DecidableEq, Repr

/-- The task fields the scheduler code manipulates. -/
structure TaskRec where
  taskID : Int
  state : JobState
  failReason : String
  resetCount : Nat
deriving DecidableEq, Repr

/-- Lookup by task id (first occurrence). -/
def taskGet : List TaskRec → Int → Option TaskRec
  | [], _ => none
  | t :: rest, tid => if t.taskID = tid then some t else taskGet rest tid

/-- Insert keyed by task id: replace the entry with the same id, or
append. -/
def taskPut : List TaskRec → TaskRec → List TaskRec
  | [], t => [t]
  | x :: rest, t => if x.taskID = t.taskID then t :: rest else x :: taskPut rest t

/-- Remove every entry with the given task id. -/
def taskRemove (l : List TaskRec) (tid : Int) : List TaskRec :=
  l.filter (fun t => !(t.taskID == tid))

/-- The two task collections of `taskScheduler`. -/
structure SchedState where
  pending : List TaskRec
  running : List TaskRec
deriving DecidableEq, Repr

/-- `taskScheduler.enqueue`: push to pending unless the task is already
in the running map. -/
def enqueue (s : SchedState) (t : TaskRec) : SchedState :=
  match taskGet s.running t.taskID with
  | some _ => s
  | none => { s with pending := taskPut s.pending t }

/-- `taskScheduler.AbortTask`: if the task is pending, mark it failed
with reason "canceled", insert it into running and remove it from
pending; otherwise, if running, mark it failed with the same reason. -/
def abortTask (s : SchedState) (tid : Int) : SchedState :=
  match taskGet s.pending tid with
  | some t =>
    { pending := taskRemove s.pending tid,
      running := taskPut s.running { t with state := JobState.jsFailed, failReason := "canceled" } }
  | none =>
    match taskGet s.running tid with
    | some t =>
      { s with running := taskPut s.running { t with state := JobState.jsFailed, failReason := "canceled" } }
    | none => s

/-- One popped-task step of `taskScheduler.run`: pop a pending task;
`nodeAssigned` is whether `pickNode` returned a node (≠ -1), in which
case `process` runs and leaves the task in state `postState` (the
task-kind hooks live outside the analysed files, so the post-`process`
state is universally quantified); then the switch on the task state
pushes back to pending, evicts (`processNone` with `dropMetaOk`), or
inserts into running. -/
def dispatchOne (s : SchedState) (nodeAssigned : Bool) (postState : JobState)
    (dropMetaOk : Bool) : SchedState :=
  match s.pending with
  | [] => s
  | t :: pendRest =>
    let t1 := if nodeAssigned then { t with state := postState } else t
    match t1.state with
    | JobState.jsNone =>
      if dropMetaOk then { pending := pendRest, running := s.running }
      else { pending := taskPut pendRest t1, running := s.running }
    | JobState.jsInit => { pending := taskPut pendRest t1, running := s.running }
    | _ => { pending := pendRest, running := taskPut s.running t1 }

/-- Outcomes of the external calls made while polling one running task:
whether `GetClientByID` finds the node, whether `DropTaskOnWorker`
succeeds, whether `SetJobInfo` succeeds, and the state recorded by
`QueryResult`. -/
structure PollEnv where
  clientOk : Bool
  dropOk : Bool
  setJobOk : Bool
  queryState : JobState
deriving DecidableEq, Repr

/-- `taskScheduler.processFinished` (success flag only: `SetJobInfo`,
then best-effort `DropTaskOnWorker` when the client exists). -/
def processFinishedM (env : PollEnv) : Bool :=
  if env.setJobOk then (if env.clientOk then env.dropOk else true) else false

/-- `taskScheduler.processRetry`: if the client exists and the drop
fails, return unchanged with failure; otherwise set state to init with
empty reason, reset, and report the task to be pushed to pending.
Result: (updated task, success flag, task pushed to pending if any). -/
def processRetryM (env : PollEnv) (t : TaskRec) : TaskRec × Bool × Option TaskRec :=
  if env.clientOk ∧ env.dropOk = false then (t, false, none)
  else
    let t1 := { t with state := JobState.jsInit, failReason := "",
                       resetCount := t.resetCount + 1 }
    (t1, true, some t1)

/-- `taskScheduler.processInProgress`: query the worker if the client
exists (then possibly reset and finish); otherwise mark retry. -/
def processInProgressM (env : PollEnv) (t : TaskRec) : TaskRec × Bool × Option TaskRec :=
  if env.clientOk then
    let t1 := { t with state := env.queryState }
    if t1.state = JobState.jsFinished ∨ t1.state = JobState.jsFailed then
      let t2 := { t1 with resetCount := t1.resetCount + 1 }
      (t2, processFinishedM env, none)
    else (t1, false, none)
  else ({ t with state := JobState.jsRetry, failReason := "node does not exist" }, false, none)

/-- `taskScheduler.checkProcessingTask`: dispatch on the task state. -/
def checkProcessingTaskM (env : PollEnv) (t : TaskRec) : TaskRec × Bool × Option TaskRec :=
  match t.state with
  | JobState.jsInProgress => processInProgressM env t
  | JobState.jsRetry => processRetryM env t
  | JobState.jsFinished => (t, processFinishedM env, none)
  | JobState.jsFailed => (t, processFinishedM env, none)
  | _ => (t, false, none)

/-- One running task handled by one iteration of
`taskScheduler.checkProcessingTasks`: run `checkProcessingTask` under
the task lock and remove the task from running on success. -/
def pollOne (s : SchedState) (tid : Int) (env : PollEnv) : SchedState :=
  match taskGet s.running tid with
  | none => s
  | some t =>
    let r := checkProcessingTaskM env t
    let pending1 := match r.2.2 with
      | some tp => taskPut s.pending tp
      | none => s.pending
    let running1 := taskPut s.running r.1
    if r.2.1 then { pending := pending1, running := taskRemove running1 tid }
    else { pending := pending1, running := running1 }

theorem taskGet_some : ∀ (l : List TaskRec) (tid : Int) (t : TaskRec),
    taskGet l tid = some t → t ∈ l ∧ t.taskID = tid := by
  intro l
  induction l with
  | nil => intro tid t h; simp [taskGet] at h
  | cons x rest ih =>
    intro tid t h
    by_cases hx : x.taskID = tid
    · simp only [taskGet, if_pos hx] at h
      injection h with h
      subst h
      exact ⟨List.mem_cons_self _ _, hx⟩
    · simp only [taskGet, if_neg hx] at h
      obtain ⟨hmem, hid⟩ := ih tid t h
      exact ⟨List.mem_cons_of_mem _ hmem, hid⟩

theorem taskGet_none : ∀ (l : List TaskRec) (tid : Int),
    taskGet l tid = none ↔ ∀ t ∈ l, t.taskID ≠ tid := by
  intro l
  induction l with
  | nil => intro tid; simp [taskGet]
  | cons x rest ih =>
    intro tid
    by_cases hx : x.taskID = tid
    · simp only [taskGet, if_pos hx]
      constructor
      · intro h; simp at h
      · intro h; exact absurd hx (h x (List.mem_cons_self _ _))
    · simp only [taskGet, if_neg hx]
      rw [ih]
      constructor
      · intro h t ht
        rcases List.mem_cons.mp ht with ht | ht
        · rw [ht]; exact hx
        · exact h t ht
      · intro h t ht
        exact h t (List.mem_cons_of_mem _ ht)

theorem taskGet_put_self : ∀ (l : List TaskRec) (t : TaskRec),
    taskGet (taskPut l t) t.taskID = some t := by
  intro l
  induction l with
  | nil => intro t; simp [taskPut, taskGet]
  | cons x rest ih =>
    intro t
    by_cases hx : x.taskID = t.taskID
    · simp [taskPut, taskGet, hx]
    · simp only [taskPut, if_neg hx, taskGet, if_neg hx]
      exact ih t

theorem taskGet_put_ne : ∀ (l : List TaskRec) (t : TaskRec) (tid : Int),
    tid ≠ t.taskID → taskGet (taskPut l t) tid = taskGet l tid := by
  intro l
  induction l with
  | nil => intro t tid h; simp [taskPut, taskGet, Ne.symm h]
  | cons x rest ih =>
    intro t tid h
    by_cases hx : x.taskID = t.taskID
    · have hxt : x.taskID ≠ tid := by rw [hx]; exact Ne.symm h
      simp [taskPut, taskGet, hx, hxt, Ne.symm h]
    · by_cases hx2 : x.taskID = tid
      · simp only [taskPut, if_neg hx]
        simp [taskGet, hx2]
      · simp only [taskPut, if_neg hx]
        simp [taskGet, hx2, ih t tid h]

theorem taskGet_remove_self (l : List TaskRec) (tid : Int) :
    taskGet (taskRemove l tid) tid = none := by
  rw [taskGet_none]
  intro t ht
  have := List.mem_filter.mp ht
  simpa using this.2

theorem taskGet_remove_ne : ∀ (l : List TaskRec) (tid tid' : Int),
    tid ≠ tid' → taskGet (taskRemove l tid') tid = taskGet l tid := by
  intro l
  induction l with
  | nil => intro tid tid' _; simp [taskRemove, taskGet]
  | cons x rest ih =>
    intro tid tid' h
    by_cases hx : x.taskID = tid'
    · have hxt : x.taskID ≠ tid := by rw [hx]; exact Ne.symm h
      simp only [taskRemove, List.filter_cons]
      rw [if_neg (by simp [hx])]
      simp only [taskGet, if_neg hxt]
      exact ih tid tid' h
    · simp only [taskRemove, List.filter_cons]
      rw [if_pos (by simp [hx])]
      by_cases hx2 : x.taskID = tid
      · simp [taskGet, hx2]
      · simp only [taskGet, if_neg hx2]
        exact ih tid tid' h

theorem mem_taskPut : ∀ (l : List TaskRec) (t x : TaskRec),
    x ∈ taskPut l t → x = t ∨ x ∈ l := by
  intro l
  induction l with
  | nil => intro t x h; simp [taskPut] at h; exact Or.inl h
  | cons y rest ih =>
    intro t x h
    by_cases hy : y.taskID = t.taskID
    · simp only [taskPut, if_pos hy] at h
      rcases List.mem_cons.mp h with h | h
      · exact Or.inl h
      · exact Or.inr (List.mem_cons_of_mem _ h)
    · simp only [taskPut, if_neg hy] at h
      rcases List.mem_cons.mp h with h | h
      · exact Or.inr (by rw [h]; exact List.mem_cons_self _ _)
      · rcases ih t x h with h | h
        · exact Or.inl h
        · exact Or.inr (List.mem_cons_of_mem _ h)

theorem mem_taskRemove (l : List TaskRec) (tid : Int) (x : TaskRec) :
    x ∈ taskRemove l tid → x ∈ l ∧ x.taskID ≠ tid := by
  intro h
  have := List.mem_filter.mp h
  refine ⟨this.1, ?_⟩
  simpa using this.2

theorem nodup_taskPut : ∀ (l : List TaskRec) (t : TaskRec),
    (l.map TaskRec.taskID).Nodup → ((taskPut l t).map TaskRec.taskID).Nodup := by
  intro l
  induction l with
  | nil => intro t _; simp [taskPut]
  | cons x rest ih =>
    intro t hnd
    simp only [List.map_cons, List.nodup_cons] at hnd
    by_cases hx : x.taskID = t.taskID
    · simp only [taskPut, if_pos hx, List.map_cons, List.nodup_cons]
      exact ⟨by rw [← hx]; exact hnd.1, hnd.2⟩
    · simp only [taskPut, if_neg hx, List.map_cons, List.nodup_cons]
      constructor
      · intro hmem
        obtain ⟨y, hy, hyid⟩ := List.mem_map.mp hmem
        rcases mem_taskPut rest t y hy with h | h
        · exact hx (by rw [← hyid, h])
        · exact hnd.1 (List.mem_map.mpr ⟨y, h, hyid⟩)
      · exact ih t hnd.2

theorem nodup_taskRemove (l : List TaskRec) (tid : Int) :
    (l.map TaskRec.taskID).Nodup → ((taskRemove l tid).map TaskRec.taskID).Nodup := by
  intro hnd
  exact List.Nodup.sublist (List.Sublist.map _ (List.filter_sublist l)) hnd

theorem taskPut_of_get (l : List TaskRec) (tid : Int) (t : TaskRec) :
    taskGet l tid = some t → taskPut l t = l := by
  induction l with
  | nil => intro h; simp [taskGet] at h
  | cons x rest ih =>
    intro h
    by_cases hx : x.taskID = tid
    · simp only [taskGet, if_pos hx] at h
      injection h with h
      subst h
      simp [taskPut]
    · simp only [taskGet, if_neg hx] at h
      have hid : t.taskID = tid := (taskGet_some rest tid t h).2
      have : x.taskID ≠ t.taskID := by rw [hid]; exact hx
      simp only [taskPut, if_neg this]
      rw [ih h]

/-- Claim C1: aborting a pending task removes it from the pending queue,
inserts it into the running map in state failed with reason "canceled";
aborting a running task sets the same state and it remains in the
running map. -/
theorem abortTask_correct (s : SchedState) (tid : Int) (t : TaskRec) :
    (taskGet s.pending tid = some t →
      taskGet (abortTask s tid).pending tid = none ∧
      taskGet (abortTask s tid).running tid =
        some { t with state := JobState.jsFailed, failReason := "canceled" }) ∧
    (taskGet s.pending tid = none → taskGet s.running tid = some t →
      (abortTask s tid).pending = s.pending ∧
      taskGet (abortTask s tid).running tid =
        some { t with state := JobState.jsFailed, failReason := "canceled" }) := by
  constructor
  · intro hp
    have hid : t.taskID = tid := (taskGet_some s.pending tid t hp).2
    simp only [abortTask, hp]
    constructor
    · exact taskGet_remove_self s.pending tid
    · have := taskGet_put_self s.running { t with state := JobState.jsFailed, failReason := "canceled" }
      simpa [hid] using this
  · intro hp hr
    have hid : t.taskID = tid := (taskGet_some s.running tid t hr).2
    simp only [abortTask, hp, hr]
    constructor
    · trivial
    · have := taskGet_put_self s.running { t with state := JobState.jsFailed, failReason := "canceled" }
      simpa [hid] using this

/-- Witness for C1: abort task 7 while pending, and abort task 9 while
running. -/
theorem abortTask_correct_witness :
    (taskGet [({ taskID := 7, state := JobState.jsInit, failReason := "", resetCount := 0 } : TaskRec)] 7 =
      some { taskID := 7, state := JobState.jsInit, failReason := "", resetCount := 0 } ∧
      (taskGet (abortTask { pending := [{ taskID := 7, state := JobState.jsInit, failReason := "", resetCount := 0 }], running := [] } 7).pending 7 = none ∧
       taskGet (abortTask { pending := [{ taskID := 7, state := JobState.jsInit, failReason := "", resetCount := 0 }], running := [] } 7).running 7 =
         some { taskID := 7, state := JobState.jsFailed, failReason := "canceled", resetCount := 0 })) :=
  ⟨by decide,
    (abortTask_correct
      { pending := [{ taskID := 7, state := JobState.jsInit, failReason := "", resetCount := 0 }], running := [] } 7
      { taskID := 7, state := JobState.jsInit, failReason := "", resetCount := 0 }).1 (by decide)⟩

/-- Scheduler collection invariant: every pending task is absent from
the running map, and both collections are keyed (no duplicate ids). -/
abbrev SchedInv (s : SchedState) : Prop :=
  (∀ t ∈ s.pending, taskGet s.running t.taskID = none) ∧
  (s.pending.map TaskRec.taskID).Nodup ∧
  (s.running.map TaskRec.taskID).Nodup

theorem pending_not_running (s : SchedState) (h : SchedInv s) (tid : Int)
    (hp : (taskGet s.pending tid).isSome = true) : taskGet s.running tid = none := by
  cases hg : taskGet s.pending tid with
  | none => rw [hg] at hp; simp at hp
  | some t =>
    obtain ⟨hmem, hid⟩ := taskGet_some _ _ _ hg
    have := h.1 t hmem
    rwa [hid] at this

theorem inv_enqueue (s : SchedState) (t : TaskRec) (hinv : SchedInv s) :
    SchedInv (enqueue s t) := by
  cases hg : taskGet s.running t.taskID with
  | some u => simp only [enqueue, hg]; exact hinv
  | none =>
    simp only [enqueue, hg]
    refine ⟨?_, nodup_taskPut _ _ hinv.2.1, hinv.2.2⟩
    intro x hx
    rcases mem_taskPut _ _ _ hx with hx | hx
    · rw [hx]; exact hg
    · exact hinv.1 x hx

theorem inv_abort (s : SchedState) (tid : Int) (hinv : SchedInv s) :
    SchedInv (abortTask s tid) := by
  cases hp : taskGet s.pending tid with
  | some t =>
    have hid : t.taskID = tid := (taskGet_some _ _ _ hp).2
    simp only [abortTask, hp]
    refine ⟨?_, nodup_taskRemove _ _ hinv.2.1, nodup_taskPut _ _ hinv.2.2⟩
    intro x hx
    obtain ⟨hxl, hxid⟩ := mem_taskRemove s.pending tid x hx
    rw [taskGet_put_ne]
    · exact hinv.1 x hxl
    · simpa [hid] using hxid
  | none =>
    cases hr : taskGet s.running tid with
    | some t =>
      have hid : t.taskID = tid := (taskGet_some _ _ _ hr).2
      simp only [abortTask, hp, hr]
      refine ⟨?_, hinv.2.1, nodup_taskPut _ _ hinv.2.2⟩
      intro x hx
      by_cases hxe : x.taskID = tid
      · exact absurd hxe ((taskGet_none s.pending tid).mp hp x hx)
      · rw [taskGet_put_ne]
        · exact hinv.1 x hx
        · simpa [hid] using hxe
    | none => simp only [abortTask, hp, hr]; exact hinv

theorem inv_dispatch_core (s : SchedState) (t : TaskRec) (pendRest : List TaskRec)
    (hpend : s.pending = t :: pendRest) (hinv : SchedInv s) (t1 : TaskRec)
    (ht1id : t1.taskID = t.taskID) :
    SchedInv { pending := pendRest, running := s.running } ∧
    SchedInv { pending := taskPut pendRest t1, running := s.running } ∧
    SchedInv { pending := pendRest, running := taskPut s.running t1 } := by
  have hinv1 : ∀ x ∈ pendRest, taskGet s.running x.taskID = none := by
    intro x hx
    exact hinv.1 x (by rw [hpend]; exact List.mem_cons_of_mem _ hx)
  have hndfull : ((t :: pendRest).map TaskRec.taskID).Nodup := by
    have := hinv.2.1; rwa [hpend] at this
  have hhead : t.taskID ∉ pendRest.map TaskRec.taskID :=
    (List.nodup_cons.mp (by simpa using hndfull)).1
  have hndp : (pendRest.map TaskRec.taskID).Nodup :=
    (List.nodup_cons.mp (by simpa using hndfull)).2
  have hrt : taskGet s.running t.taskID = none :=
    hinv.1 t (by rw [hpend]; exact List.mem_cons_self _ _)
  refine ⟨⟨hinv1, hndp, hinv.2.2⟩, ⟨?_, nodup_taskPut _ _ hndp, hinv.2.2⟩,
    ⟨?_, hndp, nodup_taskPut _ _ hinv.2.2⟩⟩
  · intro x hx
    rcases mem_taskPut _ _ _ hx with hx | hx
    · rw [hx, ht1id]; exact hrt
    · exact hinv1 x hx
  · intro x hx
    have hxne : x.taskID ≠ t1.taskID := by
      rw [ht1id]
      intro he
      exact hhead (he ▸ List.mem_map_of_mem _ hx)
    rw [taskGet_put_ne _ _ _ hxne]
    exact hinv1 x hx

theorem inv_dispatch (s : SchedState) (na : Bool) (ps : JobState) (dm : Bool)
    (hinv : SchedInv s) : SchedInv (dispatchOne s na ps dm) := by
  cases hpend : s.pending with
  | nil => simp only [dispatchOne, hpend]; exact hinv
  | cons t pendRest =>
    simp only [dispatchOne, hpend]
    generalize hgen : (if na = true then { t with state := ps } else t) = t1
    have ht1 : t1.taskID = t.taskID := by rw [← hgen]; split_ifs <;> rfl
    obtain ⟨hA, hB, hC⟩ := inv_dispatch_core s t pendRest hpend hinv t1 ht1
    cases hs1 : t1.state <;> simp only [hs1]
    · split_ifs with hdm
      · exact hA
      · exact hB
    · exact hB
    · exact hC
    · exact hC
    · exact hC
    · exact hC

theorem checkProcessingTaskM_facts (env : PollEnv) (t : TaskRec) :
    (checkProcessingTaskM env t).1.taskID = t.taskID ∧
    ∀ tp, (checkProcessingTaskM env t).2.2 = some tp →
      tp.taskID = t.taskID ∧ (checkProcessingTaskM env t).2.1 = true := by
  cases ht : t.state <;>
    simp [checkProcessingTaskM, ht, processInProgressM, processRetryM] <;>
    split_ifs <;> simp_all

theorem inv_poll (s : SchedState) (tid : Int) (env : PollEnv) (hinv : SchedInv s) :
    SchedInv (pollOne s tid env) := by
  cases hr : taskGet s.running tid with
  | none => simp only [pollOne, hr]; exact hinv
  | some t =>
    have hid : t.taskID = tid := (taskGet_some _ _ _ hr).2
    obtain ⟨hfid, hfpush⟩ := checkProcessingTaskM_facts env t
    have hr1id : (checkProcessingTaskM env t).1.taskID = tid := by rw [hfid, hid]
    simp only [pollOne, hr]
    cases hpush : (checkProcessingTaskM env t).2.2 with
    | some tp =>
      obtain ⟨htpid, hsuc⟩ := hfpush tp hpush
      have htpid' : tp.taskID = tid := by rw [htpid, hid]
      simp only [hpush, hsuc, if_pos]
      refine ⟨?_, nodup_taskPut _ _ hinv.2.1,
        nodup_taskRemove _ _ (nodup_taskPut _ _ hinv.2.2)⟩
      intro x hx
      rcases mem_taskPut _ _ _ hx with hx | hx
      · rw [hx, htpid']
        exact taskGet_remove_self _ _
      · have hxne : x.taskID ≠ tid := by
          intro he
          have := hinv.1 x hx
          rw [he, hr] at this
          exact Option.noConfusion this
        rw [taskGet_remove_ne _ _ _ hxne, taskGet_put_ne _ _ _ (by rwa [hr1id])]
        exact hinv.1 x hx
    | none =>
      simp only [hpush]
      by_cases hsuc : (checkProcessingTaskM env t).2.1 = true
      · simp only [hsuc, if_pos]
        refine ⟨?_, hinv.2.1, nodup_taskRemove _ _ (nodup_taskPut _ _ hinv.2.2)⟩
        intro x hx
        by_cases hxe : x.taskID = tid
        · rw [hxe]
          exact taskGet_remove_self _ _
        · rw [taskGet_remove_ne _ _ _ hxe, taskGet_put_ne _ _ _ (by rwa [hr1id])]
          exact hinv.1 x hx
      · rw [if_neg hsuc]
        refine ⟨?_, hinv.2.1, nodup_taskPut _ _ hinv.2.2⟩
        intro x hx
        have hxne : x.taskID ≠ tid := by
          intro he
          have := hinv.1 x hx
          rw [he, hr] at this
          exact Option.noConfusion this
        rw [taskGet_put_ne _ _ _ (by rwa [hr1id])]
        exact hinv.1 x hx

/-- Claim C4: under the scheduler invariant, every tracked task is in
exactly one of the pending queue and the running map, and the invariant
is preserved by `enqueue`, `AbortTask`, each dispatch step of `run`, and
each polling step of `checkProcessingTasks`. -/
theorem sched_pending_running_exclusive :
    (∀ (s : SchedState), SchedInv s → ∀ (tid : Int),
      ((taskGet s.pending tid).isSome = true ∨ (taskGet s.running tid).isSome = true) →
      (((taskGet s.pending tid).isSome = true ∧ (taskGet s.running tid).isSome = false) ∨
       ((taskGet s.pending tid).isSome = false ∧ (taskGet s.running tid).isSome = true))) ∧
    (∀ s t, SchedInv s → SchedInv (enqueue s t)) ∧
    (∀ s tid, SchedInv s → SchedInv (abortTask s tid)) ∧
    (∀ s na ps dm, SchedInv s → SchedInv (dispatchOne s na ps dm)) ∧
    (∀ s tid env, SchedInv s → SchedInv (pollOne s tid env)) := by
  refine ⟨?_, inv_enqueue, inv_abort, inv_dispatch, inv_poll⟩
  intro s hinv tid htr
  by_cases hp : (taskGet s.pending tid).isSome = true
  · left
    refine ⟨hp, ?_⟩
    rw [pending_not_running s hinv tid hp]
    rfl
  · right
    refine ⟨by simpa using hp, ?_⟩
    rcases htr with h | h
    · exact absurd h hp
    · exact h

/-- Witness for C4: the invariant holds after aborting pending task 7 in
a state holding pending task 7 and running task 9. -/
theorem sched_pending_running_exclusive_witness :
    SchedInv (abortTask
      { pending := [{ taskID := 7, state := JobState.jsInit, failReason := "", resetCount := 0 }],
        running := [{ taskID := 9, state := JobState.jsInProgress, failReason := "", resetCount := 0 }] } 7) :=
  sched_pending_running_exclusive.2.2.1
    { pending := [{ taskID := 7, state := JobState.jsInit, failReason := "", resetCount := 0 }],
      running := [{ taskID := 9, state := JobState.jsInProgress, failReason := "", resetCount := 0 }] } 7
    (by decide)

/-- Counterexample for C9: running task 7 is in state retry, its worker
is still registered (`clientOk`), and `DropTaskOnWorker` fails
(`dropOk = false`).  One polling iteration then leaves the scheduler
state completely unchanged: the task is not reset, not set to init, not
pushed to pending, and not removed from running — contrary to the claim
that one iteration always performs that transition. -/
theorem processRetry_drop_failure_counterexample :
    pollOne
      { pending := [],
        running := [{ taskID := 7, state := JobState.jsRetry, failReason := "", resetCount := 0 }] } 7
      { clientOk := true, dropOk := false, setJobOk := true, queryState := JobState.jsInit } =
    { pending := [],
      running := [{ taskID := 7, state := JobState.jsRetry, failReason := "", resetCount := 0 }] } ∧
    taskGet (pollOne
      { pending := [],
        running := [{ taskID := 7, state := JobState.jsRetry, failReason := "", resetCount := 0 }] } 7
      { clientOk := true, dropOk := false, setJobOk := true, queryState := JobState.jsInit }).pending 7 = none ∧
    taskGet (pollOne
      { pending := [],
        running := [{ taskID := 7, state := JobState.jsRetry, failReason := "", resetCount := 0 }] } 7
      { clientOk := true, dropOk := false, setJobOk := true, queryState := JobState.jsInit }).running 7 =
      some { taskID := 7, state := JobState.jsRetry, failReason := "", resetCount := 0 } := by
  refine ⟨rfl, rfl, rfl⟩

/-- Claim C9 as amended: for a running task in state retry, one polling
iteration completes the retry transition — reset (counted), state set to
init with empty reason, push to pending, removal from running — exactly
when the assigned worker is no longer registered or dropping the task on
it succeeds; if the worker is registered and the drop fails, the
iteration leaves the scheduler state unchanged (the transition is
attempted again at the next tick). -/
theorem processRetry_amended (s : SchedState) (tid : Int) (env : PollEnv) (t : TaskRec)
    (hget : taskGet s.running tid = some t) (hstate : t.state = JobState.jsRetry) :
    (env.clientOk = true → env.dropOk = false → pollOne s tid env = s) ∧
    ((env.clientOk = false ∨ env.dropOk = true) →
      taskGet (pollOne s tid env).pending tid =
        some { t with state := JobState.jsInit, failReason := "", resetCount := t.resetCount + 1 } ∧
      taskGet (pollOne s tid env).running tid = none) := by
  have hid : t.taskID = tid := (taskGet_some _ _ _ hget).2
  constructor
  · intro hc hd
    have hcond : (env.clientOk = true ∧ env.dropOk = false) := ⟨hc, hd⟩
    simp only [pollOne, hget, checkProcessingTaskM, hstate, processRetryM, if_pos hcond]
    simp only [Bool.false_eq_true, if_false]
    rw [taskPut_of_get s.running tid t hget]
  · intro hor
    have hcond : ¬(env.clientOk = true ∧ env.dropOk = false) := by
      rcases hor with h | h
      · intro hco
        rw [hco.1] at h
        exact Bool.noConfusion h
      · intro hco
        rw [hco.2] at h
        exact Bool.noConfusion h
    simp only [pollOne, hget, checkProcessingTaskM, hstate, processRetryM, if_neg hcond]
    simp only [if_pos]
    constructor
    · rw [← hid]
      exact taskGet_put_self s.pending
        { t with state := JobState.jsInit, failReason := "", resetCount := t.resetCount + 1 }
    · exact taskGet_remove_self _ _

/-- Witness for the amended C9: worker no longer registered, retry task
7 is moved to pending in state init and removed from running. -/
theorem processRetry_amended_witness :
    taskGet (pollOne
      { pending := [],
        running := [{ taskID := 7, state := JobState.jsRetry, failReason := "r", resetCount := 0 }] } 7
      { clientOk := false, dropOk := false, setJobOk := true, queryState := JobState.jsInit }).pending 7 =
      some { taskID := 7, state := JobState.jsInit, failReason := "", resetCount := 1 } ∧
    taskGet (pollOne
      { pending := [],
        running := [{ taskID := 7, state := JobState.jsRetry, failReason := "r", resetCount := 0 }] } 7
      { clientOk := false, dropOk := false, setJobOk := true, queryState := JobState.jsInit }).running 7 = none :=
  (processRetry_amended
    { pending := [],
      running := [{ taskID := 7, state := JobState.jsRetry, failReason := "r", resetCount := 0 }] } 7
    { clientOk := false, dropOk := false, setJobOk := true, queryState := JobState.jsInit }
    { taskID := 7, state := JobState.jsRetry, failReason := "r", resetCount := 0 }
    (by decide) (by decide)).2 (Or.inl rfl)

/-! ## Channel manager: assignment, term fencing (streaming coord)

Embedding of `mutablePChannel.TryAssignToServerID`,
`mutablePChannel.AssignToServerDone` and
`ChannelManager.AssignPChannels`.  Channel ids, node ids, and access
modes are modelled as `Int`; the wall-clock `LastAssignTimestampSeconds`
field written by `AssignToServerDone` is not read by any claim and is
omitted. -/

/-- `PChannelMetaState`. -/
inductive PState where
  | uninit
  | assigning
  | assigned
  | unavailable
deriving DecidableEq, Repr

/-- One `PChannelAssignmentLog` history entry: the term, node, and
access mode superseded by a reassignment. -/
structure PChannelAssignLog where
  term : Int
  node : Int
  accessMode : Int
deriving DecidableEq, Repr

/-- The fields of `PChannelMeta` the analysed code manipulates. -/
structure PChannelMeta where
  term : Int
  accessMode : Int
  node : Int
  state : PState
  histories : List PChannelAssignLog
deriving DecidableEq, Repr

/-- `mutablePChannel.TryAssignToServerID`: skip when mode, node and
state `assigned` all match; otherwise append the old (term, node, mode)
to the history (unless uninitialised), bump the term, move to
`assigning`. Returns whether the channel changed, with the new meta. -/
def tryAssignToServerID (accessMode node : Int) (m : PChannelMeta) : Bool × PChannelMeta :=
  if m.accessMode = accessMode ∧ m.node = node ∧ m.state = PState.assigned then
    (false, m)
  else
    let hists :=
      if m.state ≠ PState.uninit then
        m.histories ++ [{ term := m.term, node := m.node, accessMode := m.accessMode }]
      else m.histories
    (true, { term := m.term + 1, accessMode := accessMode, node := node,
             state := PState.assigning, histories := hists })

/-- `mutablePChannel.AssignToServerDone`: on `assigning`, clear the
history and move to `assigned`. -/
def assignToServerDone (m : PChannelMeta) : PChannelMeta :=
  if m.state = PState.assigning then
    { m with histories := [], state := PState.assigned }
  else m

/-- Modelled from the spec: `newPChannelMeta` (its body is outside the
analysed sources) creates a channel on first observation with an empty
assignment history in the uninitialised state, not yet assigned to any
node. -/
def newPChannelMeta (accessMode : Int) : PChannelMeta :=
  { term := 0, accessMode := accessMode, node := -1,
    state := PState.uninit, histories := [] }

/-- Channel-map lookup (first occurrence; ids are unique in a Go map). -/
def chanGet : List (Int × PChannelMeta) → Int → Option PChannelMeta
  | [], _ => none
  | (k, m) :: rest, id => if k = id then some m else chanGet rest id

/-- Channel-map keyed update. -/
def chanPut : List (Int × PChannelMeta) → Int → PChannelMeta → List (Int × PChannelMeta)
  | [], id, m => [(id, m)]
  | (k, x) :: rest, id, m => if k = id then (id, m) :: rest else (k, x) :: chanPut rest id m

/-- `ChannelManager` state visible to the claims: the channel map, the
`version.Local` counter, and a count of `persistAssignment` calls. -/
structure CMState where
  channels : List (Int × PChannelMeta)
  localVersion : Int
  persistedCount : Nat
deriving DecidableEq, Repr

/-- The update loop of `ChannelManager.AssignPChannels`: each batch
entry `(id, mode, node)` must name an existing channel; entries whose
`TryAssignToServerID` reports a change are written back to the map and
persisted.  Returns the new map and the number of persist calls. -/
def applyUpdates : List (Int × Int × Int) → List (Int × PChannelMeta) → Nat →
    Option (List (Int × PChannelMeta) × Nat)
  | [], chans, np => some (chans, np)
  | (id, mode, node) :: rest, chans, np =>
    match chanGet chans id with
    | none => none
    | some ch =>
      let r := tryAssignToServerID mode node ch
      if r.1 then applyUpdates rest (chanPut chans id r.2) (np + 1)
      else applyUpdates rest chans np

/-- `ChannelManager.AssignPChannels`: apply the batch, then increment
`version.Local` (the increment is unconditional on the success path). -/
def assignPChannels (s : CMState) (updates : List (Int × Int × Int)) : Option CMState :=
  match applyUpdates updates s.channels 0 with
  | none => none
  | some (chans, np) =>
    some { channels := chans, localVersion := s.localVersion + 1,
           persistedCount := s.persistedCount + np }

/-- A channel map such that one concrete assigned channel, for the C5
counterexample. -/
def c5chan0 : PChannelMeta :=
  { term := 1, accessMode := 1, node := 1, state := PState.assigned, histories := [] }

/-- Initial manager state for the C5 counterexample: channel 1 assigned
to node 1 in read-write mode. -/
def c5s0 : CMState :=
  { channels := [(1, c5chan0)], localVersion := 0, persistedCount := 0 }

/-- The batch reassigning channel 1 to node 2. -/
def c5batch : List (Int × Int × Int) := [(1, 1, 2)]

/-- State after the first `assign` call of the C5 scenario. -/
def c5s1 : CMState := (assignPChannels c5s0 c5batch).getD c5s0

/-- State after the second, identical `assign` call. -/
def c5s2 : CMState := (assignPChannels c5s1 c5batch).getD c5s1

/-- Counterexample for C5: running `assign()` twice with the same batch
immediately after the first call is not a no-op.  After the first call
channel 1 is still in state `assigning`, so the second call increments
its term again (2 → 3), persists a second record, and the local counter
is incremented again (1 → 2). -/
theorem assign_twice_not_noop :
    (chanGet c5s1.channels 1).map PChannelMeta.term = some 2 ∧
    (chanGet c5s2.channels 1).map PChannelMeta.term = some 3 ∧
    (chanGet c5s2.channels 1).map PChannelMeta.state = some PState.assigning ∧
    c5s1.persistedCount = 1 ∧ c5s2.persistedCount = 2 ∧
    c5s1.localVersion = 1 ∧ c5s2.localVersion = 2 := by
  refine ⟨rfl, rfl, rfl, rfl, rfl, rfl, rfl⟩

/-- Claim C5 as amended: a repeat of the same `assign()` batch is
per-channel idempotent only once every channel of the batch is in state
`assigned` with matching (mode, node) — which holds after the first
call's assignments are confirmed, not immediately after the first call —
and even then the view version's `local_counter` is still incremented by
one, while no term changes and nothing is persisted. -/
theorem assign_skip_when_assigned (s : CMState) (updates : List (Int × Int × Int))
    (h : ∀ u ∈ updates, ∃ ch, chanGet s.channels u.1 = some ch ∧
      ch.state = PState.assigned ∧ ch.accessMode = u.2.1 ∧ ch.node = u.2.2) :
    assignPChannels s updates =
      some { channels := s.channels, localVersion := s.localVersion + 1,
             persistedCount := s.persistedCount } := by
  have hgen : ∀ (us : List (Int × Int × Int)),
      (∀ u ∈ us, ∃ ch, chanGet s.channels u.1 = some ch ∧
        ch.state = PState.assigned ∧ ch.accessMode = u.2.1 ∧ ch.node = u.2.2) →
      applyUpdates us s.channels 0 = some (s.channels, 0) := by
    intro us
    induction us with
    | nil => intro _; rfl
    | cons u rest ih =>
      intro hall
      obtain ⟨ch, hch, hst, hmode, hnode⟩ := hall u (List.mem_cons_self _ _)
      obtain ⟨id, mode, node⟩ := u
      simp only at hch hst hmode hnode
      have hskip : tryAssignToServerID mode node ch = (false, ch) := by
        unfold tryAssignToServerID
        rw [if_pos ⟨hmode.symm ▸ rfl, by rw [hnode], hst⟩]
      simp only [applyUpdates, hch, hskip]
      exact ih (fun v hv => hall v (List.mem_cons_of_mem _ hv))
  unfold assignPChannels
  rw [hgen updates h]
  simp

/-- Witness for the amended C5: a batch on a confirmed (assigned,
matching) channel is skipped, only the local counter moves. -/
theorem assign_skip_when_assigned_witness :
    assignPChannels
      { channels := [(1, { term := 4, accessMode := 1, node := 2,
                           state := PState.assigned, histories := [] })],
        localVersion := 5, persistedCount := 3 } [(1, 1, 2)] =
      some { channels := [(1, { term := 4, accessMode := 1, node := 2,
                                state := PState.assigned, histories := [] })],
             localVersion := 6, persistedCount := 3 } :=
  assign_skip_when_assigned
    { channels := [(1, { term := 4, accessMode := 1, node := 2,
                         state := PState.assigned, histories := [] })],
      localVersion := 5, persistedCount := 3 } [(1, 1, 2)]
    (by
      intro u hu
      simp only [List.mem_singleton] at hu
      subst hu
      exact ⟨{ term := 4, accessMode := 1, node := 2,
               state := PState.assigned, histories := [] }, by decide⟩)

/-- Term dominance: the channel's current term is strictly greater than
the term of every history entry. -/
abbrev termDominatesHistory (m : PChannelMeta) : Prop :=
  ∀ h ∈ m.histories, h.term < m.term

/-- Claim C6: term dominance over the history holds for a newly created
channel, is preserved by `TryAssignToServerID` (which appends the old
term before incrementing), and by `AssignToServerDone` (which clears the
history). -/
theorem term_dominates_history_invariant :
    (∀ accessMode, termDominatesHistory (newPChannelMeta accessMode)) ∧
    (∀ accessMode node m, termDominatesHistory m →
      termDominatesHistory (tryAssignToServerID accessMode node m).2) ∧
    (∀ m, termDominatesHistory m → termDominatesHistory (assignToServerDone m)) := by
  refine ⟨?_, ?_, ?_⟩
  · intro accessMode h hmem
    simp [newPChannelMeta] at hmem
  · intro accessMode node m hdom
    unfold tryAssignToServerID
    split_ifs with hskip hst
    · exact hdom
    · intro h hmem
      have hmem' : h ∈ m.histories ++
          [{ term := m.term, node := m.node, accessMode := m.accessMode }] := hmem
      have hle : h.term ≤ m.term := by
        rcases List.mem_append.mp hmem' with hmem'' | hmem''
        · exact le_of_lt (hdom h hmem'')
        · simp only [List.mem_singleton] at hmem''
          rw [hmem'']
      show h.term < m.term + 1
      omega
    · intro h hmem
      have hmem' : h ∈ m.histories := hmem
      have := hdom h hmem'
      show h.term < m.term + 1
      omega
  · intro m hdom
    unfold assignToServerDone
    split_ifs with hst
    · intro h hmem
      simp at hmem
    · exact hdom

/-- Witness for C6: dominance is preserved across a reassignment of a
concrete assigned channel. -/
theorem term_dominates_history_invariant_witness :
    termDominatesHistory (tryAssignToServerID 1 3
      { term := 2, accessMode := 1, node := 1, state := PState.assigned,
        histories := [{ term := 1, node := 0, accessMode := 1 }] }).2 :=
  term_dominates_history_invariant.2.1 1 3
    { term := 2, accessMode := 1, node := 1, state := PState.assigned,
      histories := [{ term := 1, node := 0, accessMode := 1 }] }
    (by decide)

/-! ## Garbage collector (garbage_collector.go)

Embedding of `clearEtcd` / `checkDroppedSegmentGC` (segment GC), `scan`
(file-prefix residue scan) and the `work` loop's Pause/Resume handling.
Object-store, metadata-store and index-coordinator calls are oracles in
`GCEnv`; timestamps are integers (`now` is the evaluation instant).
`removedFiles` records every log path whose deletion the pass attempts. -/

/-- `commonpb.SegmentState` (the states the GC code distinguishes). -/
inductive SegState where
  | growing
  | sealed
  | flushed
  | dropped
deriving DecidableEq, Repr

/-- The segment fields read by the garbage collector. -/
structure SegmentInfo where
  segID : Int
  state : SegState
  compacted : Bool
  compactionFrom : List Int
  droppedAt : Int
  insertChannel : Int
  dmlPosTs : Int
  binlogs : List String
  statslogs : List String
  deltalogs : List String
deriving DecidableEq, Repr

/-- External outcomes and configuration of one GC pass. -/
structure GCEnv where
  now : Int
  dropTolerance : Int
  missingTolerance : Int
  channelExists : Int → Bool
  checkpointTs : Int → Int
  indexed : Int → Bool
  removeObjOk : String → Bool
  dropMetaOk : Int → Bool
  parseSeg : String → Option Int

/-- `getLogs`: all binlog, statslog and deltalog paths of a segment. -/
def getLogs (s : SegmentInfo) : List String :=
  s.binlogs ++ s.statslogs ++ s.deltalogs

/-- `garbageCollector.isExpire`: the segment was dropped more than
`dropTolerance` ago. -/
def isExpire (env : GCEnv) (dropts : Int) : Bool :=
  if env.dropTolerance < env.now - dropts then true else false

/-- The channel-checkpoint gate at the end of `checkDroppedSegmentGC`:
fail when the channel still exists and the segment's DML position is
past the channel checkpoint. -/
def checkpointGate (env : GCEnv) (seg : SegmentInfo) (cpTs : Int) : Bool :=
  if env.channelExists seg.insertChannel = true ∧ cpTs < seg.dmlPosTs then false else true

/-- `garbageCollector.checkDroppedSegmentGC`. -/
def checkDroppedSegmentGC (env : GCEnv) (seg : SegmentInfo) (child : Option SegmentInfo)
    (indexSet : List Int) (cpTs : Int) : Bool :=
  if child.isSome = true ∨ seg.compacted = true then
    match child with
    | some ch => if ch.segID ∈ indexSet then checkpointGate env seg cpTs else false
    | none => checkpointGate env seg cpTs
  else
    if isExpire env seg.droppedAt then checkpointGate env seg cpTs else false

/-- The dropped segments of the metadata snapshot. -/
def dropsOf (segs : List SegmentInfo) : List SegmentInfo :=
  segs.filter (fun s => decide (s.state = SegState.dropped))

/-- `drops[segmentID]` lookup (first occurrence). -/
def dropsLookup : List SegmentInfo → Int → Option SegmentInfo
  | [], _ => none
  | s :: rest, id => if s.segID = id then some s else dropsLookup rest id

/-- The `compactTo` map: iterating all segments, each id in a segment's
`CompactionFrom` maps to that segment; a later segment overwrites. -/
def compactToLookup : List SegmentInfo → Int → Option SegmentInfo
  | [], _ => none
  | s :: rest, id =>
    match compactToLookup rest id with
    | some r => some r
    | none => if id ∈ s.compactionFrom then some s else none

/-- The indexed-set: ids of compaction children of dropped segments that
`FilterInIndexedSegments` (an oracle here) reports fully indexed. -/
def indexedSetOf (env : GCEnv) (segs : List SegmentInfo) : List Int :=
  (((dropsOf segs).filterMap (fun s => compactToLookup segs s.segID)).map
    SegmentInfo.segID).filter env.indexed

/-- Channel-checkpoint map built over the channels of dropped segments;
a missing key reads as the Go zero value 0. -/
def cpChanOf (env : GCEnv) (segs : List SegmentInfo) (ch : Int) : Int :=
  if ch ∈ (dropsOf segs).map SegmentInfo.insertChannel then env.checkpointTs ch else 0

/-- Insertion into a sorted list of ids. -/
def insertSorted (x : Int) : List Int → List Int
  | [] => [x]
  | y :: rest => if x ≤ y then x :: y :: rest else y :: insertSorted x rest

/-- Ascending sort of the dropped-segment ids (`sort.Slice`). -/
def sortInts : List Int → List Int
  | [] => []
  | x :: rest => insertSorted x (sortInts rest)

/-- `meta.DropSegment`: remove the record by id. -/
def metaRemove (meta : List SegmentInfo) (id : Int) : List SegmentInfo :=
  meta.filter (fun s => !(s.segID == id))

/-- `meta.GetSegmentsByChannel`. -/
def metaByChannel (meta : List SegmentInfo) (ch : Int) : List SegmentInfo :=
  meta.filter (fun s => s.insertChannel == ch)

/-- Observable effects of one segment-GC pass. -/
structure GCResult where
  removedFiles : List String
  droppedMeta : List Int
  droppedCP : List Int
deriving DecidableEq, Repr

/-- The per-segment loop of `clearEtcd`: for each dropped-segment id,
re-check `checkDroppedSegmentGC`; on pass, attempt all log deletions,
drop the metadata record when every deletion and the drop succeed, and
drop the channel checkpoint when the channel has no remaining segments
and no channel metadata. -/
def gcLoop (env : GCEnv) (drops segsAll : List SegmentInfo) (indexSet : List Int)
    (cpOf : Int → Int) : List Int → List SegmentInfo → GCResult
  | [], _meta => { removedFiles := [], droppedMeta := [], droppedCP := [] }
  | id :: rest, meta =>
    match dropsLookup drops id with
    | none => gcLoop env drops segsAll indexSet cpOf rest meta
    | some seg =>
      if checkDroppedSegmentGC env seg (compactToLookup segsAll seg.segID) indexSet
          (cpOf seg.insertChannel) then
        let logs := getLogs seg
        let dropOk := logs.all env.removeObjOk && env.dropMetaOk seg.segID
        let meta1 := if dropOk then metaRemove meta seg.segID else meta
        let cpDrop := (metaByChannel meta1 seg.insertChannel).isEmpty &&
          !(env.channelExists seg.insertChannel)
        let r := gcLoop env drops segsAll indexSet cpOf rest meta1
        { removedFiles := logs ++ r.removedFiles,
          droppedMeta := (if dropOk then [seg.segID] else []) ++ r.droppedMeta,
          droppedCP := (if cpDrop then [seg.insertChannel] else []) ++ r.droppedCP }
      else gcLoop env drops segsAll indexSet cpOf rest meta

/-- `garbageCollector.clearEtcd` over a metadata snapshot. -/
def clearEtcd (env : GCEnv) (segs : List SegmentInfo) : GCResult :=
  gcLoop env (dropsOf segs) segs (indexedSetOf env segs) (cpChanOf env segs)
    (sortInts ((dropsOf segs).map SegmentInfo.segID)) segs

theorem dropsLookup_some : ∀ (l : List SegmentInfo) (id : Int) (s : SegmentInfo),
    dropsLookup l id = some s → s ∈ l ∧ s.segID = id := by
  intro l
  induction l with
  | nil => intro id s h; simp [dropsLookup] at h
  | cons x rest ih =>
    intro id s h
    by_cases hx : x.segID = id
    · simp only [dropsLookup, if_pos hx] at h
      injection h with h
      subst h
      exact ⟨List.mem_cons_self _ _, hx⟩
    · simp only [dropsLookup, if_neg hx] at h
      obtain ⟨hmem, hid⟩ := ih id s h
      exact ⟨List.mem_cons_of_mem _ hmem, hid⟩

theorem mem_dropsOf (segs : List SegmentInfo) (s : SegmentInfo) :
    s ∈ dropsOf segs ↔ s ∈ segs ∧ s.state = SegState.dropped := by
  unfold dropsOf
  rw [List.mem_filter]
  simp

theorem segID_inj (segs : List SegmentInfo)
    (hids : (segs.map SegmentInfo.segID).Nodup) :
    ∀ a ∈ segs, ∀ b ∈ segs, a.segID = b.segID → a = b := by
  induction segs with
  | nil => intro a ha; simp at ha
  | cons x rest ih =>
    simp only [List.map_cons, List.nodup_cons] at hids
    intro a ha b hb hab
    rcases List.mem_cons.mp ha with ha | ha <;> rcases List.mem_cons.mp hb with hb | hb
    · rw [ha, hb]
    · exfalso
      exact hids.1 (by rw [ha] at hab; exact hab ▸ List.mem_map_of_mem _ hb)
    · exfalso
      exact hids.1 (by rw [hb] at hab; exact hab ▸ List.mem_map_of_mem _ ha)
    · exact ih hids.2 a ha b hb hab

theorem gcLoop_removed_inv (env : GCEnv) (drops segsAll : List SegmentInfo)
    (indexSet : List Int) (cpOf : Int → Int) :
    ∀ (ids : List Int) (meta : List SegmentInfo) (p : String),
    p ∈ (gcLoop env drops segsAll indexSet cpOf ids meta).removedFiles →
    ∃ id ∈ ids, ∃ s, dropsLookup drops id = some s ∧
      checkDroppedSegmentGC env s (compactToLookup segsAll s.segID) indexSet
        (cpOf s.insertChannel) = true ∧
      p ∈ getLogs s := by
  intro ids
  induction ids with
  | nil => intro meta p h; simp [gcLoop] at h
  | cons id rest ih =>
    intro meta p h
    cases hlk : dropsLookup drops id with
    | none =>
      simp only [gcLoop, hlk] at h
      obtain ⟨id', hid', hrest⟩ := ih meta p h
      exact ⟨id', List.mem_cons_of_mem _ hid', hrest⟩
    | some seg =>
      by_cases hchk : checkDroppedSegmentGC env seg (compactToLookup segsAll seg.segID)
          indexSet (cpOf seg.insertChannel) = true
      · simp only [gcLoop, hlk, if_pos hchk] at h
        rcases List.mem_append.mp h with h | h
        · exact ⟨id, List.mem_cons_self _ _, seg, hlk, hchk, h⟩
        · obtain ⟨id', hid', hrest⟩ := ih _ p h
          exact ⟨id', List.mem_cons_of_mem _ hid', hrest⟩
      · simp only [gcLoop, hlk, if_neg hchk] at h
        obtain ⟨id', hid', hrest⟩ := ih meta p h
        exact ⟨id', List.mem_cons_of_mem _ hid', hrest⟩

theorem gcLoop_dropped_inv (env : GCEnv) (drops segsAll : List SegmentInfo)
    (indexSet : List Int) (cpOf : Int → Int) :
    ∀ (ids : List Int) (meta : List SegmentInfo) (x : Int),
    x ∈ (gcLoop env drops segsAll indexSet cpOf ids meta).droppedMeta →
    ∃ id ∈ ids, ∃ s, dropsLookup drops id = some s ∧ x = s.segID ∧
      checkDroppedSegmentGC env s (compactToLookup segsAll s.segID) indexSet
        (cpOf s.insertChannel) = true := by
  intro ids
  induction ids with
  | nil => intro meta x h; simp [gcLoop] at h
  | cons id rest ih =>
    intro meta x h
    cases hlk : dropsLookup drops id with
    | none =>
      simp only [gcLoop, hlk] at h
      obtain ⟨id', hid', hrest⟩ := ih meta x h
      exact ⟨id', List.mem_cons_of_mem _ hid', hrest⟩
    | some seg =>
      by_cases hchk : checkDroppedSegmentGC env seg (compactToLookup segsAll seg.segID)
          indexSet (cpOf seg.insertChannel) = true
      · simp only [gcLoop, hlk, if_pos hchk] at h
        rcases List.mem_append.mp h with h | h
        · refine ⟨id, List.mem_cons_self _ _, seg, hlk, ?_, hchk⟩
          by_cases hdo : (getLogs seg).all env.removeObjOk && env.dropMetaOk seg.segID
          · rw [if_pos hdo] at h
            simpa using h
          · rw [if_neg hdo] at h
            simp at h
        · obtain ⟨id', hid', hrest⟩ := ih _ x h
          exact ⟨id', List.mem_cons_of_mem _ hid', hrest⟩
      · simp only [gcLoop, hlk, if_neg hchk] at h
        obtain ⟨id', hid', hrest⟩ := ih meta x h
        exact ⟨id', List.mem_cons_of_mem _ hid', hrest⟩

theorem checkpointGate_true (env : GCEnv) (seg : SegmentInfo) (cpTs : Int) :
    checkpointGate env seg cpTs = true →
    env.channelExists seg.insertChannel = false ∨ seg.dmlPosTs ≤ cpTs := by
  unfold checkpointGate
  split_ifs with h
  · intro hff
    exact absurd hff (by simp)
  · intro _
    by_cases hce : env.channelExists seg.insertChannel = true
    · right
      have : ¬(cpTs < seg.dmlPosTs) := fun hlt => h ⟨hce, hlt⟩
      omega
    · left
      simpa using hce

theorem check_true_of_child (env : GCEnv) (seg child : SegmentInfo)
    (indexSet : List Int) (cpTs : Int) :
    checkDroppedSegmentGC env seg (some child) indexSet cpTs = true →
    child.segID ∈ indexSet ∧ checkpointGate env seg cpTs = true := by
  unfold checkDroppedSegmentGC
  rw [if_pos (show (some child).isSome = true ∨ seg.compacted = true from Or.inl rfl)]
  show (if child.segID ∈ indexSet then checkpointGate env seg cpTs else false) = true →
    child.segID ∈ indexSet ∧ checkpointGate env seg cpTs = true
  split_ifs with hmem
  · intro hg
    exact ⟨hmem, hg⟩
  · intro hff
    exact absurd hff (by simp)

theorem mem_indexedSetOf (env : GCEnv) (segs : List SegmentInfo) (x : Int) :
    x ∈ indexedSetOf env segs → env.indexed x = true := by
  intro h
  exact (List.mem_filter.mp h).2

theorem dropsLookup_of_mem : ∀ (l : List SegmentInfo),
    (l.map SegmentInfo.segID).Nodup → ∀ s ∈ l, dropsLookup l s.segID = some s := by
  intro l
  induction l with
  | nil => intro _ s hs; simp at hs
  | cons x rest ih =>
    intro hnd s hs
    simp only [List.map_cons, List.nodup_cons] at hnd
    rcases List.mem_cons.mp hs with hs | hs
    · subst hs
      simp [dropsLookup]
    · by_cases hx : x.segID = s.segID
      · exfalso
        exact hnd.1 (hx ▸ List.mem_map_of_mem _ hs)
      · simp only [dropsLookup, if_neg hx]
        exact ih hnd.2 s hs

/-- Claim C7: a dropped segment whose compaction child is still present
in metadata but not indexed is not garbage-collected by `clearEtcd`:
none of its log files is deleted and its metadata record is kept; and
whenever `clearEtcd` does drop the segment's record, the child is
indexed and the channel-checkpoint condition holds. -/
theorem gc_respects_compaction (env : GCEnv) (segs : List SegmentInfo)
    (seg child : SegmentInfo)
    (hmem : seg ∈ segs) (hdropped : seg.state = SegState.dropped)
    (hids : (segs.map SegmentInfo.segID).Nodup)
    (hchild : compactToLookup segs seg.segID = some child)
    (hpaths : ∀ s' ∈ segs, s'.segID ≠ seg.segID → ∀ p ∈ getLogs seg, p ∉ getLogs s') :
    (env.indexed child.segID = false →
      (∀ p ∈ getLogs seg, p ∉ (clearEtcd env segs).removedFiles) ∧
      seg.segID ∉ (clearEtcd env segs).droppedMeta) ∧
    (seg.segID ∈ (clearEtcd env segs).droppedMeta →
      env.indexed child.segID = true ∧
      (env.channelExists seg.insertChannel = false ∨
        seg.dmlPosTs ≤ env.checkpointTs seg.insertChannel)) := by
  have hdropmem : seg ∈ dropsOf segs := (mem_dropsOf segs seg).mpr ⟨hmem, hdropped⟩
  have hs_of_lookup : ∀ (id : Int) (s : SegmentInfo),
      dropsLookup (dropsOf segs) id = some s → s ∈ segs ∧ s.segID = id := by
    intro id s h
    obtain ⟨hmem', hid⟩ := dropsLookup_some _ _ _ h
    exact ⟨((mem_dropsOf segs s).mp hmem').1, hid⟩
  have hinj := segID_inj segs hids
  have hcpeq : cpChanOf env segs seg.insertChannel = env.checkpointTs seg.insertChannel := by
    unfold cpChanOf
    rw [if_pos (List.mem_map_of_mem _ hdropmem)]
  constructor
  · intro hnotIndexed
    have hcheck : checkDroppedSegmentGC env seg (compactToLookup segs seg.segID)
        (indexedSetOf env segs) (cpChanOf env segs seg.insertChannel) = false := by
      rw [hchild]
      unfold checkDroppedSegmentGC
      rw [if_pos (show (some child).isSome = true ∨ seg.compacted = true from Or.inl rfl)]
      have hni : child.segID ∉ indexedSetOf env segs := by
        intro hin
        rw [mem_indexedSetOf env segs child.segID hin] at hnotIndexed
        exact Bool.noConfusion hnotIndexed
      simp only [if_neg hni]
    constructor
    · intro p hp hcontra
      obtain ⟨id, _, s, hlk, hchk, hps⟩ :=
        gcLoop_removed_inv env (dropsOf segs) segs (indexedSetOf env segs)
          (cpChanOf env segs) _ _ p hcontra
      obtain ⟨hsmem, hsid⟩ := hs_of_lookup id s hlk
      by_cases hsame : s.segID = seg.segID
      · have hseq : s = seg := hinj s hsmem seg hmem hsame
        rw [hseq] at hchk
        rw [hcheck] at hchk
        exact Bool.noConfusion hchk
      · exact hpaths s hsmem hsame p hp hps
    · intro hcontra
      obtain ⟨id, _, s, hlk, hxid, hchk⟩ :=
        gcLoop_dropped_inv env (dropsOf segs) segs (indexedSetOf env segs)
          (cpChanOf env segs) _ _ seg.segID hcontra
      obtain ⟨hsmem, hsid⟩ := hs_of_lookup id s hlk
      have hseq : s = seg := hinj s hsmem seg hmem hxid.symm
      rw [hseq] at hchk
      rw [hcheck] at hchk
      exact Bool.noConfusion hchk
  · intro hin
    obtain ⟨id, _, s, hlk, hxid, hchk⟩ :=
      gcLoop_dropped_inv env (dropsOf segs) segs (indexedSetOf env segs)
        (cpChanOf env segs) _ _ seg.segID hin
    obtain ⟨hsmem, hsid⟩ := hs_of_lookup id s hlk
    have hseq : s = seg := hinj s hsmem seg hmem hxid.symm
    rw [hseq] at hchk
    rw [hchild] at hchk
    obtain ⟨hidx, hgate⟩ := check_true_of_child env seg child _ _ hchk
    refine ⟨mem_indexedSetOf env segs child.segID hidx, ?_⟩
    have := checkpointGate_true env seg _ hgate
    rwa [hcpeq] at this

/-- GC environment for the C7 witness: no child is indexed yet. -/
def c7env : GCEnv :=
  { now := 100, dropTolerance := 1, missingTolerance := 1,
    channelExists := fun _ => true, checkpointTs := fun _ => 0,
    indexed := fun _ => false, removeObjOk := fun _ => true,
    dropMetaOk := fun _ => true, parseSeg := fun _ => none }

/-- Dropped segment 1 of the C7 witness (compacted away). -/
def c7segA : SegmentInfo :=
  { segID := 1, state := SegState.dropped, compacted := true,
    compactionFrom := [], droppedAt := 0, insertChannel := 5, dmlPosTs := 10,
    binlogs := [("a1" : String)], statslogs := [], deltalogs := [] }

/-- Compaction-result segment 3 of the C7 witness (not indexed). -/
def c7segC : SegmentInfo :=
  { segID := 3, state := SegState.flushed, compacted := false,
    compactionFrom := [1, 2], droppedAt := 0, insertChannel := 5, dmlPosTs := 0,
    binlogs := [("c1" : String)], statslogs := [], deltalogs := [] }

/-- Metadata snapshot of the C7 witness. -/
def c7segs : List SegmentInfo := [c7segA, c7segC]

/-- Witness for C7: segments 1 and 2 were compacted into segment 3,
which is not yet indexed; the GC pass must not touch segment 1. -/
theorem gc_respects_compaction_witness :
    (∀ p ∈ getLogs c7segA, p ∉ (clearEtcd c7env c7segs).removedFiles) ∧
    c7segA.segID ∉ (clearEtcd c7env c7segs).droppedMeta :=
  (gc_respects_compaction c7env c7segs c7segA c7segC
    (by decide) (by decide) (by decide) (by decide) (by decide)).1 rfl

/-- The three scanned log prefixes of `garbageCollector.scan`. -/
inductive LogKind where
  | insertLog
  | statsLog
  | deltaLog
deriving DecidableEq, Repr

/-- One listed object: its path, modification time, and whether the
listing itself reported an error for it. -/
structure ObjInfo where
  path : String
  modTime : Int
  listErr : Bool
deriving DecidableEq, Repr

/-- The per-prefix reference filter of `scan`'s `checker`: insert-log
objects are accepted whenever the segment exists; statslog and deltalog
objects must additionally be referenced by the segment's log paths. -/
def refOk (kind : LogKind) (s : SegmentInfo) (p : String) : Bool :=
  match kind with
  | LogKind.insertLog => true
  | LogKind.statsLog => s.statslogs.contains p
  | LogKind.deltaLog => s.deltalogs.contains p

/-- `meta.GetSegments` by a single id (first occurrence). -/
def segLookup : List SegmentInfo → Int → Option SegmentInfo
  | [], _ => none
  | s :: rest, id => if s.segID = id then some s else segLookup rest id

/-- `scan`'s `checker`: one result exactly when the segment is found and
the filter accepts the object path. -/
def checker (segs : List SegmentInfo) (id : Int) (p : String) (kind : LogKind) : Bool :=
  match segLookup segs id with
  | some s => refOk kind s p
  | none => false

/-- The object loop of `garbageCollector.scan` for one prefix: skip
listing errors, skip objects no older than `missingTolerance`, skip
unparsable paths, keep objects the checker validates, and remove the
rest.  Returns the removed keys. -/
def scanObjects (env : GCEnv) (segs : List SegmentInfo) (kind : LogKind) :
    List ObjInfo → List String
  | [] => []
  | o :: rest =>
    if o.listErr then scanObjects env segs kind rest
    else if env.now - o.modTime ≤ env.missingTolerance then scanObjects env segs kind rest
    else
      match env.parseSeg o.path with
      | none => scanObjects env segs kind rest
      | some id =>
        if checker segs id o.path kind then scanObjects env segs kind rest
        else o.path :: scanObjects env segs kind rest

theorem objPath_inj (objs : List ObjInfo)
    (hnd : (objs.map ObjInfo.path).Nodup) :
    ∀ a ∈ objs, ∀ b ∈ objs, a.path = b.path → a = b := by
  induction objs with
  | nil => intro a ha; simp at ha
  | cons x rest ih =>
    simp only [List.map_cons, List.nodup_cons] at hnd
    intro a ha b hb hab
    rcases List.mem_cons.mp ha with ha | ha <;> rcases List.mem_cons.mp hb with hb | hb
    · rw [ha, hb]
    · exfalso
      exact hnd.1 (by rw [ha] at hab; exact hab ▸ List.mem_map_of_mem _ hb)
    · exfalso
      exact hnd.1 (by rw [hb] at hab; exact hab ▸ List.mem_map_of_mem _ ha)
    · exact ih hnd.2 a ha b hb hab

/-- Claim C8: the file-prefix scan never removes an object whose age is
at most the missing-tolerance, and removes an object only when it is
older than the tolerance and its segment is missing from metadata (or
its path is not referenced by the found segment's logs). -/
theorem scan_respects_tolerance (env : GCEnv) (segs : List SegmentInfo)
    (kind : LogKind) (objs : List ObjInfo)
    (hnd : (objs.map ObjInfo.path).Nodup) :
    (∀ o ∈ objs, env.now - o.modTime ≤ env.missingTolerance →
      o.path ∉ scanObjects env segs kind objs) ∧
    (∀ p ∈ scanObjects env segs kind objs, ∃ o ∈ objs, o.path = p ∧
      env.missingTolerance < env.now - o.modTime ∧
      ∃ id, env.parseSeg p = some id ∧
        (segLookup segs id = none ∨
          ∃ s, segLookup segs id = some s ∧ refOk kind s p = false)) := by
  have hmemc : ∀ (os : List ObjInfo) (p : String), p ∈ scanObjects env segs kind os →
      ∃ o ∈ os, o.path = p ∧ env.missingTolerance < env.now - o.modTime ∧
      ∃ id, env.parseSeg p = some id ∧
        (segLookup segs id = none ∨
          ∃ s, segLookup segs id = some s ∧ refOk kind s p = false) := by
    intro os
    induction os with
    | nil => intro p h; simp [scanObjects] at h
    | cons o rest ih =>
      intro p h
      by_cases he : o.listErr
      · rw [show scanObjects env segs kind (o :: rest) = scanObjects env segs kind rest by
          simp [scanObjects, he]] at h
        obtain ⟨o', ho', hrest⟩ := ih p h
        exact ⟨o', List.mem_cons_of_mem _ ho', hrest⟩
      · by_cases hyoung : env.now - o.modTime ≤ env.missingTolerance
        · rw [show scanObjects env segs kind (o :: rest) = scanObjects env segs kind rest by
            simp [scanObjects, he, hyoung]] at h
          obtain ⟨o', ho', hrest⟩ := ih p h
          exact ⟨o', List.mem_cons_of_mem _ ho', hrest⟩
        · cases hparse : env.parseSeg o.path with
          | none =>
            rw [show scanObjects env segs kind (o :: rest) = scanObjects env segs kind rest by
              simp [scanObjects, he, hyoung, hparse]] at h
            obtain ⟨o', ho', hrest⟩ := ih p h
            exact ⟨o', List.mem_cons_of_mem _ ho', hrest⟩
          | some id =>
            by_cases hchk : checker segs id o.path kind = true
            · rw [show scanObjects env segs kind (o :: rest) = scanObjects env segs kind rest by
                simp [scanObjects, he, hyoung, hparse, hchk]] at h
              obtain ⟨o', ho', hrest⟩ := ih p h
              exact ⟨o', List.mem_cons_of_mem _ ho', hrest⟩
            · rw [show scanObjects env segs kind (o :: rest) =
                  o.path :: scanObjects env segs kind rest by
                simp [scanObjects, he, hyoung, hparse, hchk]] at h
              rcases List.mem_cons.mp h with h | h
              · refine ⟨o, List.mem_cons_self _ _, h.symm, by omega, id, by rw [h]; exact hparse, ?_⟩
                rw [h]
                unfold checker at hchk
                cases hsl : segLookup segs id with
                | none => exact Or.inl rfl
                | some s =>
                  right
                  refine ⟨s, rfl, ?_⟩
                  rw [hsl] at hchk
                  simpa using hchk
              · obtain ⟨o', ho', hrest⟩ := ih p h
                exact ⟨o', List.mem_cons_of_mem _ ho', hrest⟩
  refine ⟨?_, hmemc objs⟩
  intro o ho hyoung hcontra
  obtain ⟨o', ho', hpath, hold, _⟩ := hmemc objs o.path hcontra
  have heq : o' = o := objPath_inj objs hnd o' ho' o ho hpath
  rw [heq] at hold
  omega

/-- `datapb.GcCommand` as handled by `garbageCollector.work`. -/
inductive GcCommand where
  | pause (d : Int)
  | resume
deriving DecidableEq, Repr

/-- The command arm of `garbageCollector.work`: Pause stores
`now + duration` only when it is after the current deadline; Resume
stores the zero time (0). -/
def handleGcCommand (cur now : Int) : GcCommand → Int
  | GcCommand.pause d => if cur < now + d then now + d else cur
  | GcCommand.resume => 0

/-- Claim C10: the pause deadline is monotone under Pause — handling
`Pause d` sets it to `max cur (now + d)`, so a later shorter pause never
shortens an existing pause — and only Resume clears it to the zero
time. -/
theorem gc_pause_deadline_monotone :
    (∀ cur now d, handleGcCommand cur now (GcCommand.pause d) = max cur (now + d)) ∧
    (∀ cur now d, cur ≤ handleGcCommand cur now (GcCommand.pause d)) ∧
    (∀ cur now, handleGcCommand cur now GcCommand.resume = 0) := by
  refine ⟨?_, ?_, ?_⟩
  · intro cur now d
    simp only [handleGcCommand]
    rcases le_or_lt (now + d) cur with h | h
    · rw [if_neg (not_lt.mpr h), max_eq_left h]
    · rw [if_pos h, max_eq_right (le_of_lt h)]
  · intro cur now d
    simp only [handleGcCommand]
    split_ifs with h <;> omega
  · intro cur now
    rfl

/-- GC environment for the C8 witness: one old orphan object. -/
def c8env : GCEnv :=
  { now := 100, dropTolerance := 1, missingTolerance := 10,
    channelExists := fun _ => true, checkpointTs := fun _ => 0,
    indexed := fun _ => false, removeObjOk := fun _ => true,
    dropMetaOk := fun _ => true,
    parseSeg := fun p => if p = ("x" : String) then some 1 else none }

/-- Objects for the C8 witness: an old orphan and a fresh object. -/
def c8objs : List ObjInfo :=
  [{ path := ("x" : String), modTime := 0, listErr := false },
   { path := ("y" : String), modTime := 95, listErr := false }]

/-- Witness for C8: the fresh object `y` survives the scan; everything
removed is old, parsed, and unreferenced in the (empty) metadata. -/
theorem scan_respects_tolerance_witness :
    (∀ o ∈ c8objs, c8env.now - o.modTime ≤ c8env.missingTolerance →
      o.path ∉ scanObjects c8env [] LogKind.insertLog c8objs) ∧
    (∀ p ∈ scanObjects c8env [] LogKind.insertLog c8objs, ∃ o ∈ c8objs, o.path = p ∧
      c8env.missingTolerance < c8env.now - o.modTime ∧
      ∃ id, c8env.parseSeg p = some id ∧
        (segLookup [] id = none ∨
          ∃ s, segLookup [] id = some s ∧ refOk LogKind.insertLog s p = false)) :=
  scan_respects_tolerance c8env [] LogKind.insertLog c8objs (by decide)
